import Mathlib

/-!
Verification of the range-bounded trie diff and anti-entropy repair code in
`apps/hubble/src/allowedPeers.mainnet.ts` (sync-health tool).

Shallow embedding conventions:
* byte buffers are `List Nat`; `Buffer.compare` is `bufCompare`;
* a replica's message set is a `List Msg`, where a message's trie key is its
  fixed-width decimal timestamp followed by the rest of its sync id;
* the in-process metadata retriever is the pure function `getMetadata`
  (`none` models the `unavailable` error for an absent node);
* `traverseRange` carries a fuel argument bounding the recursion depth (the
  real recursion descends along the two boundary prefixes, whose length is
  `TIMESTAMP_LENGTH`, so the fuel used by callers is never exhausted), and
  instead of a mutating visitor callback it returns the list of visited
  child nodes together with the list of queried node keys, in call order.
-/

namespace SyncHealth

/-- Embeds Node's `Buffer.compare` (restricted to the two-buffer ordering the
source uses): bytewise comparison; when one buffer is a proper leading part of
the other, the shorter compares less. -/
def bufCompare : List Nat → List Nat → Ordering
  | [], [] => Ordering.eq
  | [], _ :: _ => Ordering.lt
  | _ :: _, [] => Ordering.gt
  | a :: l1, b :: l2 =>
    if a < b then Ordering.lt
    else if b < a then Ordering.gt
    else bufCompare l1 l2

/-- The fixed width of the decimal timestamp portion of a sync id
(`TIMESTAMP_LENGTH` of `network/sync/syncId.ts`). -/
def TIMESTAMP_LENGTH : Nat := 10

/-- Left-zero-padded fixed-width decimal digits of `t`: position `i` holds the
decimal digit of `t` of weight `10 ^ (w - 1 - i)`. -/
def paddedDecimal (w t : Nat) : List Nat :=
  (List.range w).map (fun i => t / 10 ^ (w - 1 - i) % 10)

/-- Modelled from the spec: the time-prefix codec's padding step
(`timestampToPaddedTimestampPrefix` of `network/sync/syncId.ts`, which is not
among the sources under verification). The spec requires a fixed-width
encoding, zero-padded on the left, of the protocol timestamp. -/
def timestampToPaddedTimestampPrefix (t : Nat) : List Nat :=
  paddedDecimal TIMESTAMP_LENGTH t

/-- Modelled from the spec: `getTimePrefix` composed with the protocol-time
conversion (`toFarcasterTime`, not among the sources under verification),
which fails when the instant cannot be represented in the protocol's epoch;
representable protocol timestamps are those that fit in the fixed width. -/
def getTimePrefix (t : Nat) : Option (List Nat) :=
  if t < 10 ^ TIMESTAMP_LENGTH then some (timestampToPaddedTimestampPrefix t) else none

/-- Embeds `getCommonPrefix`: the longest shared leading byte sequence. -/
def getCommonPrefix : List Nat → List Nat → List Nat
  | a :: l1, b :: l2 => if a = b then a :: getCommonPrefix l1 l2 else []
  | _, _ => []

/-- A message of a replica: its protocol timestamp and the remainder of its
sync id beyond the timestamp digits. -/
structure Msg where
  ts : Nat
  rest : List Nat
deriving DecidableEq, Repr

/-- The trie key of a message: fixed-width decimal timestamp digits followed
by the rest of the sync id. -/
def key (m : Msg) : List Nat := timestampToPaddedTimestampPrefix m.ts ++ m.rest

/-- Messages of the replica stored below the trie node with key `p`. -/
def msgsUnder (db : List Msg) (p : List Nat) : List Msg :=
  db.filter (fun m => p.isPrefixOf (key m))

/-- The (deduplicated) next bytes occurring after `p` among keys below `p`:
one per child node of the trie node with key `p`. -/
def childBytes (db : List Msg) (p : List Nat) : List Nat :=
  (db.filterMap (fun m => if p.isPrefixOf (key m) then (key m).get? p.length else none)).dedup

/-- A child entry of a trie-node metadata response: the child's key and its
aggregate message count (the response nests `TrieNodeMetadataResponse`
values, but only these two fields of a child are ever populated and read). -/
structure TrieChild where
  pfx : List Nat
  num : Nat
deriving DecidableEq, Repr

/-- A trie-node metadata response (`TrieNodeMetadataResponse`): the node's
key, its aggregate message count and its child list. -/
structure TrieNodeMeta where
  pfx : List Nat
  numMessages : Nat
  children : List TrieChild
deriving DecidableEq, Repr

/-- The child list of the trie node with key `p`. -/
def childList (db : List Msg) (p : List Nat) : List TrieChild :=
  (childBytes db p).map (fun b => ⟨p ++ [b], (msgsUnder db (p ++ [b])).length⟩)

/-- Embeds the `MetadataRetriever` capability resolved against an in-process
trie (`SyncEngineMetadataRetriever.getMetadata`): `none` models the
`unavailable` error returned when the queried node does not exist. -/
def getMetadata (db : List Msg) (p : List Nat) : Option TrieNodeMeta :=
  if (msgsUnder db p).isEmpty then none
  else some ⟨p, (msgsUnder db p).length, childList db p⟩

/-- Embeds the child loop of `traverseRange` (lines 231-240): a child equal to
the start boundary is visited; a child whose key is a leading part of either
boundary is recursed into through `recurse`; a child strictly between the two
boundaries is visited; any other child is skipped.  The loop itself cannot
fail: the source awaits the recursive `traverseRange` call but discards its
result (line 236), so an error from a recursive call is silently dropped (the
failed subtree contributes nothing) and the loop continues with the remaining
children.  The source's `isPrefix(a, b)` is `startsWith` on the decimal-digit
buffers, i.e. `b.isPrefixOf a` bytewise.  The result accumulates (visited
children, queried node keys) in call order. -/
def goChildren (startTimePrefix stopTimePrefix : List Nat)
    (recurse : List Nat → Option (List TrieChild × List (List Nat))) :
    List TrieChild → List TrieChild × List (List Nat)
  | [] => ([], [])
  | child :: rest =>
    let prev := goChildren startTimePrefix stopTimePrefix recurse rest
    if bufCompare child.pfx startTimePrefix = Ordering.eq then
      (child :: prev.1, prev.2)
    else if child.pfx.isPrefixOf startTimePrefix || child.pfx.isPrefixOf stopTimePrefix then
      match recurse child.pfx with
      | none => prev
      | some (vis1, log1) => (vis1 ++ prev.1, log1 ++ prev.2)
    else if bufCompare child.pfx startTimePrefix = Ordering.gt
        && bufCompare child.pfx stopTimePrefix = Ordering.lt then
      (child :: prev.1, prev.2)
    else
      prev

/-- Embeds `traverseRange` (lines 218-243).  It re-fetches the metadata of the
node it is given (even though the caller already holds a response for it) and
then runs the child loop; it returns an error only when that fetch of its own
node fails — errors arising inside recursive calls are discarded by the child
loop (line 236).  `fuel` bounds the recursion depth; recursion only descends
along the two boundary prefixes, so the fuel supplied by the callers below is
never exhausted. -/
def traverseRange (db : List Msg) (startTimePrefix stopTimePrefix : List Nat) :
    Nat → List Nat → Option (List TrieChild × List (List Nat))
  | 0 => fun _ => none
  | fuel + 1 => fun nodeKey =>
    match getMetadata db nodeKey with
    | none => none
    | some meta =>
      let result := goChildren startTimePrefix stopTimePrefix
        (traverseRange db startTimePrefix stopTimePrefix fuel) meta.children
      some (result.1, nodeKey :: result.2)

/-- The result of `getPrefixInfo`: the two boundary prefixes and the metadata
of their common-prefix node. -/
structure PrefixInfo where
  startTimePrefix : List Nat
  stopTimePrefix : List Nat
  commonPrefixMetadata : TrieNodeMeta
deriving DecidableEq, Repr

/-- Embeds `getPrefixInfo` (lines 245-274): encode both boundaries, take their
common prefix and fetch that node's metadata; any failure propagates. -/
def getPrefixInfo (db : List Msg) (startTime stopTime : Nat) : Option PrefixInfo :=
  match getTimePrefix startTime with
  | none => none
  | some startTimePrefix =>
    match getTimePrefix stopTime with
    | none => none
    | some stopTimePrefix =>
      match getMetadata db (getCommonPrefix startTimePrefix stopTimePrefix) with
      | none => none
      | some meta => some ⟨startTimePrefix, stopTimePrefix, meta⟩

/-- Fuel supplied to `traverseRange` by its two callers: ample, since the
recursion never descends below the boundary-prefix length. -/
def traverseFuel : Nat := 2 * TIMESTAMP_LENGTH + 1

/-- Embeds `getNumMessagesInSpanOptimized` (lines 278-305).  Beyond the
source's scalar result (the sum of the visited nodes' counts accumulated by
the visitor callback), the embedding also returns the visited child list and
the list of node keys passed to `getMetadata` (the common-prefix fetch of
`getPrefixInfo` followed by the traversal's fetches), for stating the
visit-once and query-once properties. -/
def getNumMessagesInSpanOptimized (db : List Msg) (startTime stopTime : Nat) :
    Option (Nat × List TrieChild × List (List Nat)) :=
  match getPrefixInfo db startTime stopTime with
  | none => none
  | some info =>
    match traverseRange db info.startTimePrefix info.stopTimePrefix traverseFuel
        info.commonPrefixMetadata.pfx with
    | none => none
    | some (vis, log) =>
      some ((vis.map TrieChild.num).sum, vis, info.commonPrefixMetadata.pfx :: log)

/-- Embeds the second loop of `computeSyncIdsInSpan` (lines 400-408): fetch
the sync ids below each collected node key; a successful fetch's ids are
appended, a failed fetch is skipped. -/
def collectSyncIds (fetchIds : List Nat → Option (List (List Nat))) :
    List (List Nat) → List (List Nat)
  | [] => []
  | p :: rest =>
    match fetchIds p with
    | some ids => ids ++ collectSyncIds fetchIds rest
    | none => collectSyncIds fetchIds rest

/-- Embeds `computeSyncIdsInSpan` (lines 374-411): run the range traversal
recording the visited nodes' keys, then fetch the sync ids below each
recorded key through the replica's `getAllSyncIdsByPrefix` capability
(`fetchIds`; `none` models a failed rpc). -/
def computeSyncIdsInSpan (db : List Msg) (fetchIds : List Nat → Option (List (List Nat)))
    (startTime stopTime : Nat) : Option (List (List Nat)) :=
  match getPrefixInfo db startTime stopTime with
  | none => none
  | some info =>
    match traverseRange db info.startTimePrefix info.stopTimePrefix traverseFuel
        info.commonPrefixMetadata.pfx with
    | none => none
    | some (vis, _) => some (collectSyncIds fetchIds (vis.map TrieChild.pfx))

/-- Embeds `uniqueSyncIds` (lines 439-457): keep, in order, every element of
the first list for which `find` locates no bytewise-equal element in the
second list. -/
def uniqueSyncIds (mySyncIds otherSyncIds : List (List Nat)) : List (List Nat) :=
  mySyncIds.filter (fun syncId =>
    (otherSyncIds.find? (fun other => bufCompare syncId other == Ordering.eq)).isNone)

/-- Window membership at the prefix level: the message's timestamp digits lie
weakly right of the boundary `s` and strictly left of the boundary `t`. -/
def winB (s t : List Nat) (m : Msg) : Bool :=
  decide (bufCompare (timestampToPaddedTimestampPrefix m.ts) s ≠ Ordering.lt)
    && decide (bufCompare (timestampToPaddedTimestampPrefix m.ts) t = Ordering.lt)

/-- Number of messages below node `p` whose timestamp digits lie in `[s, t)`. -/
def cntWin (db : List Msg) (s t p : List Nat) : Nat :=
  db.countP (fun m => p.isPrefixOf (key m) && winB s t m)

/-- A node key lying on one of the two boundary paths of the traversal: a
proper leading part of the start boundary, or a leading part (possibly all)
of the stop boundary.  Every node `traverseRange` is started on satisfies
this. -/
def BoundaryPath (s t p : List Nat) : Prop :=
  (p <+: s ∧ p ≠ s) ∨ p <+: t

/-- Everything the traversal guarantees at a node `p`: the visited counts sum
to the windowed count below `p`; each visited child is a strict descendant of
`p` carrying its true below-`p`-count, with everything below it inside the
window; no node is visited twice; the query log starts with `p` itself,
continues with strict descendants of `p`, and has no duplicates. -/
def TraversalOK (db : List Msg) (s t p : List Nat)
    (vis : List TrieChild) (log : List (List Nat)) : Prop :=
  (vis.map TrieChild.num).sum = cntWin db s t p
  ∧ (∀ c ∈ vis, p <+: c.pfx ∧ p.length < c.pfx.length
      ∧ c.num = (msgsUnder db c.pfx).length
      ∧ ∀ m ∈ db, c.pfx.isPrefixOf (key m) = true → winB s t m = true)
  ∧ (vis.map TrieChild.pfx).Nodup
  ∧ log.Nodup
  ∧ (∃ restLog, log = p :: restLog ∧ ∀ q ∈ restLog, p <+: q ∧ p.length < q.length)

/-- Embeds `SyncHealthMessageStats`: the two per-window message counts. -/
structure SyncHealthMessageStats where
  primaryNumMessages : Nat
  peerNumMessages : Nat
deriving DecidableEq, Repr

/-- Embeds `computeDiff` (lines 57-59): `Math.abs` of the difference. -/
def computeDiff (s : SyncHealthMessageStats) : Nat :=
  ((s.primaryNumMessages : Int) - (s.peerNumMessages : Int)).natAbs

/-- The outcomes of a JavaScript floating-point division of the kind
`computeDiffPercentage` performs (non-negative integer numerator and
denominator): a finite value, positive infinity, or NaN.  Rounding of finite
values is not modelled; the claims under verification only concern
finiteness. -/
inductive JsNum where
  | finite (q : ℚ)
  | posInf
  | nan
deriving DecidableEq, Repr

/-- Embeds `computeDiffPercentage` (lines 61-63): the IEEE-754 division
`diff / primaryNumMessages`, which yields NaN for `0 / 0` and positive
infinity for `d / 0` with `d > 0`; it is computed unconditionally. -/
def computeDiffPercentage (s : SyncHealthMessageStats) : JsNum :=
  if s.primaryNumMessages = 0 then
    if computeDiff s = 0 then JsNum.nan else JsNum.posInf
  else JsNum.finite ((computeDiff s : ℚ) / (s.primaryNumMessages : ℚ))

/-- Embeds the `diffPercentage` field of the serialized health record
(`Stats.serializedSummary`, line 142): `JSON.stringify` renders a non-finite
number as `null`, modelled as `none`. -/
def serializedDiffPercentage (s : SyncHealthMessageStats) : Option ℚ :=
  match computeDiffPercentage s with
  | JsNum.finite q => some q
  | JsNum.posInf => none
  | JsNum.nan => none

/-- Embeds `tryPushingMissingMessages`: an empty missing set short-circuits
to an empty result; otherwise the full payloads are fetched in one bulk call
(`getAllMessagesBySyncIds`, a capability of the replica holding them; `none`
models a failed rpc, which propagates) and each returned payload is submitted
individually, one recorded outcome per payload whatever `submitMessage`
returns.  Beyond the source's result list, the embedding returns the number
of remote calls issued (the bulk fetch plus one submission per payload). -/
def tryPushingMissingMessages {M R : Type}
    (getAllMessagesBySyncIds : List (List Nat) → Option (List M))
    (submitMessage : M → R) (missingSyncIds : List (List Nat)) :
    Option (List R × Nat) :=
  if missingSyncIds.length = 0 then some ([], 0)
  else
    match getAllMessagesBySyncIds missingSyncIds with
    | none => none
    | some messages => some (messages.map submitMessage, 1 + messages.length)

/-- A transport kind: the SSL rpc client or the insecure rpc client. -/
inductive Transport where
  | secure
  | insecure
deriving DecidableEq, Repr

/-- Embeds the per-peer connection logic of `printSyncHealth` (lines
543-556): the insecure client is created first, unconditionally; the SSL
client is created only when that construction raises synchronously
(`insecureRaises`) or its `waitForReady` reports an error before the
deadline (`insecureReady = false`).  The result lists the transports
attempted, in order. -/
def connectionAttempts (insecureRaises : Bool) (insecureReady : Bool) : List Transport :=
  if insecureRaises then [Transport.insecure, Transport.secure]
  else if insecureReady then [Transport.insecure]
  else [Transport.insecure, Transport.secure]

/-- Splitting a character list on `':'`, mirroring JavaScript's
`split(":")`: always at least one (possibly empty) field. -/
def splitCols : List Char → List (List Char)
  | [] => [[]]
  | c :: rest =>
    match splitCols rest with
    | [] => [[]]
    | g :: gs => if c = ':' then [] :: g :: gs else (c :: g) :: gs

/-- Embeds JavaScript `parseInt` restricted to the strings this program
feeds it (no sign or whitespace handling): the value of the longest leading
run of decimal digits; `none` models NaN. -/
def parseIntJs (field : List Char) : Option Nat :=
  let digitsRun := field.takeWhile Char.isDigit
  if digitsRun.isEmpty then none
  else some (digitsRun.foldl (fun acc c => acc * 10 + (c.toNat - 48)) 0)

/-- A JavaScript millisecond timestamp, which may be NaN: `setHours` applied
to NaN components yields a NaN time value, which is *not* `undefined`. -/
inductive JsTime where
  | nan
  | val (msSinceEpoch : Nat)
deriving DecidableEq, Repr

/-- Embeds `parseTime` (lines 498-506): split on `":"`, require the first
three fields to be truthy (non-empty); otherwise return `undefined`
(`none`).  With three non-empty fields, `setHours(parseInt h, parseInt m,
parseInt s, 0)` is applied to the current date: `dayStartMs` stands for that
date's midnight, and any NaN component makes the result NaN. -/
def parseTime (dayStartMs : Nat) (timeString : String) : Option JsTime :=
  let parts := splitCols timeString.data
  match parts.get? 0, parts.get? 1, parts.get? 2 with
  | some hours, some minutes, some seconds =>
    if hours.isEmpty || minutes.isEmpty || seconds.isEmpty then none
    else
      match parseIntJs hours, parseIntJs minutes, parseIntJs seconds with
      | some h, some mi, some sec =>
        some (JsTime.val (dayStartMs + ((h * 60 + mi) * 60 + sec) * 1000))
      | _, _, _ => some JsTime.nan
  | _, _, _ => none

/-- Embeds the guard at the top of `printSyncHealth` (lines 515-521): the
run proceeds (clients are created, peers are picked and contacted, and the
log file may be appended to) exactly when neither parsed time is
`undefined`.  A NaN time value passes this guard. -/
def printSyncHealthProceeds (dayStartMs : Nat) (startTimeOfDay stopTimeOfDay : String) :
    Bool :=
  (parseTime dayStartMs startTimeOfDay).isSome && (parseTime dayStartMs stopTimeOfDay).isSome

/-- Modelled from the spec: a parseable HH:MM:SS time-of-day string — three
`":"`-separated fields, each a non-empty run of decimal digits. -/
def wellFormedTimeOfDay (s : String) : Bool :=
  match splitCols s.data with
  | [h, mi, sec] =>
    !h.isEmpty && h.all Char.isDigit && (!mi.isEmpty && mi.all Char.isDigit)
      && (!sec.isEmpty && sec.all Char.isDigit)
  | _ => false

/-- A three-message example replica: timestamps 2, 5 and 9. -/
def exDb : List Msg := [⟨2, [7]⟩, ⟨5, [3]⟩, ⟨9, [1]⟩]

/-- The common prefix of the boundary prefixes of the window `[2, 7)`: nine
zero digits. -/
def exCommon : List Nat := List.replicate 9 0

/-- The ideal per-prefix identifier fetch against a replica: it succeeds on
every node key and returns exactly the keys of the messages below the node
(what `getAllSyncIdsByPrefix` returns when every rpc succeeds). -/
def goodFetch (db : List Msg) : List Nat → Option (List (List Nat)) :=
  fun p => some ((msgsUnder db p).map key)

/-- The property `parseTime`'s guard actually checks: the string splits into
fields of which the first three exist and are non-empty. -/
def hasThreeNonemptyFields (s : String) : Bool :=
  match (splitCols s.data).get? 0, (splitCols s.data).get? 1, (splitCols s.data).get? 2 with
  | some h, some mi, some sec => !h.isEmpty && !mi.isEmpty && !sec.isEmpty
  | _, _, _ => false

/-! Theorems. -/

/-! Basic facts about `bufCompare`. -/
theorem bufCompare_eq_iff : ∀ x y : List Nat, bufCompare x y = Ordering.eq ↔ x = y
  | [], [] => by simp [bufCompare]
  | [], _ :: _ => by simp [bufCompare]
  | _ :: _, [] => by simp [bufCompare]
  | a :: l1, b :: l2 => by
    simp only [bufCompare]
    rcases Nat.lt_trichotomy a b with h | h | h
    · simp [h, Nat.ne_of_lt h]
    · subst h
      simp [Nat.lt_irrefl, bufCompare_eq_iff l1 l2]
    · simp [h, Nat.lt_asymm h, (Nat.ne_of_lt h).symm]

theorem bufCompare_self (x : List Nat) : bufCompare x x = Ordering.eq :=
  (bufCompare_eq_iff x x).mpr rfl

theorem bufCompare_lt_iff_gt : ∀ x y : List Nat,
    bufCompare x y = Ordering.lt ↔ bufCompare y x = Ordering.gt
  | [], [] => by simp [bufCompare]
  | [], _ :: _ => by simp [bufCompare]
  | _ :: _, [] => by simp [bufCompare]
  | a :: l1, b :: l2 => by
    simp only [bufCompare]
    rcases Nat.lt_trichotomy a b with h | h | h
    · simp [h, Nat.lt_asymm h]
    · subst h
      simp [Nat.lt_irrefl, bufCompare_lt_iff_gt l1 l2]
    · simp [h, Nat.lt_asymm h]

theorem bufCompare_gt_of_prefix_gt : ∀ x x' y : List Nat,
    x <+: x' → bufCompare x y = Ordering.gt → bufCompare x' y = Ordering.gt
  | [], _, [] => by simp [bufCompare]
  | [], _, _ :: _ => by simp [bufCompare]
  | a :: l1, x', [] => by
    intro hpre _
    rcases hpre with ⟨r, rfl⟩
    simp [bufCompare]
  | a :: l1, x', b :: l2 => by
    intro hpre hgt
    rcases hpre with ⟨r, rfl⟩
    simp only [bufCompare, List.cons_append] at hgt ⊢
    rcases Nat.lt_trichotomy a b with h | h | h
    · simp [h] at hgt
    · subst h
      simp only [Nat.lt_irrefl, if_false] at hgt ⊢
      exact bufCompare_gt_of_prefix_gt l1 (l1 ++ r) l2 ⟨r, rfl⟩ hgt
    · simp [h, Nat.lt_asymm h]

theorem bufCompare_lt_of_prefix_lt : ∀ x x' y : List Nat,
    x <+: x' → bufCompare x y = Ordering.lt → ¬ x <+: y → bufCompare x' y = Ordering.lt
  | [], _, y => by
    intro _ _ habs
    exact absurd List.nil_prefix habs
  | a :: l1, x', [] => by
    intro _ hlt _
    simp [bufCompare] at hlt
  | a :: l1, x', b :: l2 => by
    intro hpre hlt hnp
    rcases hpre with ⟨r, rfl⟩
    simp only [bufCompare, List.cons_append] at hlt ⊢
    rcases Nat.lt_trichotomy a b with h | h | h
    · simp [h]
    · subst h
      simp only [Nat.lt_irrefl, if_false] at hlt ⊢
      refine bufCompare_lt_of_prefix_lt l1 (l1 ++ r) l2 ⟨r, rfl⟩ hlt ?_
      intro hp
      exact hnp (List.cons_prefix_cons.mpr ⟨rfl, hp⟩)
    · simp [h, Nat.lt_asymm h] at hlt

theorem bufCompare_gt_of_proper_prefix : ∀ x y : List Nat,
    x <+: y → x ≠ y → bufCompare y x = Ordering.gt
  | [], y => by
    intro _ hne
    match y with
    | [] => exact absurd rfl hne
    | c :: r => simp [bufCompare]
  | a :: l1, y => by
    intro hpre hne
    match y, hpre with
    | _, ⟨r, rfl⟩ =>
      simp only [List.cons_append, bufCompare, Nat.lt_irrefl, if_false]
      refine bufCompare_gt_of_proper_prefix l1 (l1 ++ r) ⟨r, rfl⟩ ?_
      intro h
      exact hne (by simp [← h])

/-! Prefix helpers. -/
theorem prefix_get? : ∀ (q x : List Nat) (n : Nat), q <+: x → n < q.length →
    x.get? n = q.get? n
  | [], _, n => by
    intro _ h
    simp at h
  | a :: q, x, n => by
    intro hpre hn
    rcases hpre with ⟨r, rfl⟩
    match n with
    | 0 => simp
    | n + 1 =>
      simp only [List.cons_append, List.get?_cons_succ]
      exact prefix_get? q (q ++ r) n ⟨r, rfl⟩ (by simpa using hn)

theorem snoc_prefix_iff : ∀ (p k : List Nat) (b : Nat),
    (p ++ [b]) <+: k ↔ p <+: k ∧ k.get? p.length = some b
  | [], k, b => by
    match k with
    | [] => simp
    | c :: k' => simp [List.cons_prefix_cons, eq_comm]
  | a :: p, k, b => by
    match k with
    | [] => simp
    | c :: k' =>
      simp only [List.cons_append, List.cons_prefix_cons, List.length_cons,
        List.get?_cons_succ]
      rw [snoc_prefix_iff p k' b]
      tauto

theorem prefix_of_append_left : ∀ (q x r : List Nat), q <+: (x ++ r) →
    q.length ≤ x.length → q <+: x
  | [], x, r => by
    intro _ _
    exact List.nil_prefix
  | a :: q, [], r => by
    intro _ h
    simp at h
  | a :: q, c :: x, r => by
    intro hpre hlen
    rw [List.cons_append, List.cons_prefix_cons] at hpre
    exact List.cons_prefix_cons.mpr
      ⟨hpre.1, prefix_of_append_left q x r hpre.2 (by simpa using hlen)⟩

/-! Facts about `getCommonPrefix`. -/
theorem getCommonPrefix_self : ∀ x : List Nat, getCommonPrefix x x = x
  | [] => rfl
  | a :: l => by simp [getCommonPrefix, getCommonPrefix_self l]

theorem getCommonPrefix_prefix_left : ∀ s t : List Nat, getCommonPrefix s t <+: s
  | [], t => List.nil_prefix
  | a :: s, [] => List.nil_prefix
  | a :: s, b :: t => by
    by_cases h : a = b
    · subst h
      simp only [getCommonPrefix, if_pos rfl]
      exact List.cons_prefix_cons.mpr ⟨rfl, getCommonPrefix_prefix_left s t⟩
    · simp only [getCommonPrefix, if_neg h]
      exact List.nil_prefix

theorem getCommonPrefix_prefix_right : ∀ s t : List Nat, getCommonPrefix s t <+: t
  | [], t => List.nil_prefix
  | a :: s, [] => List.nil_prefix
  | a :: s, b :: t => by
    by_cases h : a = b
    · subst h
      simp only [getCommonPrefix, if_pos rfl]
      exact List.cons_prefix_cons.mpr ⟨rfl, getCommonPrefix_prefix_right s t⟩
    · simp only [getCommonPrefix, if_neg h]
      exact List.nil_prefix

/-- Any buffer lying (weakly right of `s`, strictly left of `t`) extends the
common prefix of `s` and `t`. -/
theorem getCommonPrefix_prefix_of_between : ∀ s t x : List Nat,
    bufCompare x s ≠ Ordering.lt → bufCompare x t = Ordering.lt →
    getCommonPrefix s t <+: x
  | [], t, x => by
    intro _ _
    exact List.nil_prefix
  | a :: s, [], x => by
    intro _ _
    exact List.nil_prefix
  | a :: s, b :: t, x => by
    intro h1 h2
    by_cases hab : a = b
    · subst hab
      simp only [getCommonPrefix, if_pos rfl]
      match x with
      | [] => simp [bufCompare] at h1
      | xa :: x' =>
        rcases Nat.lt_trichotomy xa a with h | h | h
        · simp [bufCompare, h] at h1
        · subst h
          simp only [bufCompare, Nat.lt_irrefl, if_false] at h1 h2
          exact List.cons_prefix_cons.mpr
            ⟨rfl, getCommonPrefix_prefix_of_between s t x' h1 h2⟩
        · simp [bufCompare, h, Nat.lt_asymm h] at h2
    · simp only [getCommonPrefix, if_neg hab]
      exact List.nil_prefix

/-! The fixed-width decimal encoding is order-preserving. -/
theorem paddedDecimal_length (w t : Nat) : (paddedDecimal w t).length = w := by
  simp [paddedDecimal]

theorem timestampPrefix_length (t : Nat) :
    (timestampToPaddedTimestampPrefix t).length = TIMESTAMP_LENGTH :=
  paddedDecimal_length _ _

theorem div_pow_mod_ten (t w k : Nat) (hk : k < w) :
    t / 10 ^ k % 10 = t % 10 ^ w / 10 ^ k % 10 := by
  conv_lhs => rw [← Nat.div_add_mod t (10 ^ w)]
  have hsplit : 10 ^ w = 10 ^ k * 10 ^ (w - k) := by
    rw [← pow_add]
    congr 1
    omega
  have h1 : (10 ^ w * (t / 10 ^ w) + t % 10 ^ w) / 10 ^ k
      = 10 ^ (w - k) * (t / 10 ^ w) + t % 10 ^ w / 10 ^ k := by
    rw [hsplit, Nat.mul_assoc, Nat.mul_add_div (Nat.pos_pow_of_pos k (by norm_num))]
  rw [h1]
  have h2 : 10 ^ (w - k) * (t / 10 ^ w) = 10 * (10 ^ (w - k - 1) * (t / 10 ^ w)) := by
    rw [← Nat.mul_assoc, ← pow_succ']
    congr 2
    omega
  rw [h2, Nat.add_comm, Nat.add_mul_mod_self_left]

theorem paddedDecimal_succ (w t : Nat) :
    paddedDecimal (w + 1) t = (t / 10 ^ w % 10) :: paddedDecimal w (t % 10 ^ w) := by
  simp only [paddedDecimal, List.range_succ_eq_map, List.map_cons, List.map_map]
  have hw : w + 1 - 1 - 0 = w := by omega
  rw [hw]
  refine congrArg (List.cons _) ?_
  refine List.map_congr_left ?_
  intro i hi
  rw [List.mem_range] at hi
  simp only [Function.comp, Nat.succ_eq_add_one]
  have h1 : w + 1 - 1 - (i + 1) = w - 1 - i := by omega
  rw [h1]
  exact div_pow_mod_ten t w (w - 1 - i) (by omega)

theorem div_mod_order (c a b : Nat) (hc : 0 < c) :
    a < b ↔ a / c < b / c ∨ (a / c = b / c ∧ a % c < b % c) := by
  have ha := Nat.div_add_mod a c
  have hb := Nat.div_add_mod b c
  have hma : a % c < c := Nat.mod_lt _ hc
  have hmb : b % c < c := Nat.mod_lt _ hc
  constructor
  · intro hab
    have hdiv : a / c ≤ b / c := Nat.div_le_div_right (Nat.le_of_lt hab)
    rcases Nat.lt_or_ge (a / c) (b / c) with h | h
    · exact Or.inl h
    · have heq : a / c = b / c := Nat.le_antisymm hdiv h
      refine Or.inr ⟨heq, ?_⟩
      rw [heq] at ha
      omega
  · intro h
    rcases h with h | ⟨heq, hmod⟩
    · have h1 : a / c + 1 ≤ b / c := h
      have h2 : c * (a / c + 1) ≤ c * (b / c) := Nat.mul_le_mul_left c h1
      have h3 : c * (a / c + 1) = c * (a / c) + c := by ring
      omega
    · rw [heq] at ha
      omega

theorem paddedDecimal_lt_iff : ∀ w a b : Nat, a < 10 ^ w → b < 10 ^ w →
    (bufCompare (paddedDecimal w a) (paddedDecimal w b) = Ordering.lt ↔ a < b)
  | 0, a, b => by
    intro ha hb
    simp only [pow_zero, Nat.lt_one_iff] at ha hb
    subst ha; subst hb
    simp [paddedDecimal, bufCompare]
  | w + 1, a, b => by
    intro ha hb
    have hpow : (0 : Nat) < 10 ^ w := Nat.pos_pow_of_pos w (by norm_num)
    have hda : a / 10 ^ w < 10 := by
      rw [Nat.div_lt_iff_lt_mul hpow]
      calc a < 10 ^ (w + 1) := ha
        _ = 10 * 10 ^ w := by rw [pow_succ']
    have hdb : b / 10 ^ w < 10 := by
      rw [Nat.div_lt_iff_lt_mul hpow]
      calc b < 10 ^ (w + 1) := hb
        _ = 10 * 10 ^ w := by rw [pow_succ']
    rw [paddedDecimal_succ, paddedDecimal_succ,
      Nat.mod_eq_of_lt hda, Nat.mod_eq_of_lt hdb]
    have horder := div_mod_order (10 ^ w) a b hpow
    simp only [bufCompare]
    rcases Nat.lt_trichotomy (a / 10 ^ w) (b / 10 ^ w) with h | h | h
    · simp only [if_pos h, true_iff]
      omega
    · rw [h]
      simp only [Nat.lt_irrefl, if_false]
      rw [paddedDecimal_lt_iff w (a % 10 ^ w) (b % 10 ^ w)
        (Nat.mod_lt _ hpow) (Nat.mod_lt _ hpow)]
      omega
    · simp only [if_neg (Nat.lt_asymm h), if_pos h]
      constructor
      · intro hfalse
        cases hfalse
      · intro hab
        omega

theorem timestampPrefix_lt_iff (t1 t2 : Nat)
    (h1 : t1 < 10 ^ TIMESTAMP_LENGTH) (h2 : t2 < 10 ^ TIMESTAMP_LENGTH) :
    (bufCompare (timestampToPaddedTimestampPrefix t1) (timestampToPaddedTimestampPrefix t2)
      = Ordering.lt ↔ t1 < t2) :=
  paddedDecimal_lt_iff TIMESTAMP_LENGTH t1 t2 h1 h2

theorem timestampPrefix_not_lt_iff (t1 t2 : Nat)
    (h1 : t1 < 10 ^ TIMESTAMP_LENGTH) (h2 : t2 < 10 ^ TIMESTAMP_LENGTH) :
    (¬ bufCompare (timestampToPaddedTimestampPrefix t1) (timestampToPaddedTimestampPrefix t2)
      = Ordering.lt ↔ t2 ≤ t1) := by
  rw [timestampPrefix_lt_iff t1 t2 h1 h2]
  omega

theorem timestampPrefix_prefix_key (m : Msg) :
    timestampToPaddedTimestampPrefix m.ts <+: key m :=
  ⟨m.rest, rfl⟩

theorem length_key_ge (m : Msg) : TIMESTAMP_LENGTH ≤ (key m).length := by
  have h := timestampPrefix_length m.ts
  simp only [key, List.length_append]
  omega

theorem prefix_key_prefix_ts {q : List Nat} {m : Msg} (hq : q <+: key m)
    (hlen : q.length ≤ TIMESTAMP_LENGTH) :
    q <+: timestampToPaddedTimestampPrefix m.ts := by
  refine prefix_of_append_left q _ m.rest hq ?_
  rw [timestampPrefix_length]
  exact hlen

theorem countP_congr_mem : ∀ (db : List Msg) (P Q : Msg → Bool),
    (∀ m ∈ db, P m = Q m) → db.countP P = db.countP Q
  | [], _, _ => fun _ => rfl
  | m :: db, P, Q => by
    intro h
    rw [List.countP_cons, List.countP_cons,
      countP_congr_mem db P Q (fun x hx => h x (List.mem_cons_of_mem m hx)),
      h m (List.mem_cons_self m db)]

theorem countP_and_not_split : ∀ (db : List Msg) (P Q : Msg → Bool),
    db.countP P = db.countP (fun m => P m && Q m) + db.countP (fun m => P m && !Q m)
  | [], _, _ => rfl
  | m :: db, P, Q => by
    simp only [List.countP_cons]
    rw [countP_and_not_split db P Q]
    cases hP : P m <;> cases hQ : Q m <;> simp [hP, hQ] <;> omega

theorem sum_map_add {α : Type} : ∀ (L : List α) (f g : α → Nat),
    (L.map (fun b => f b + g b)).sum = (L.map f).sum + (L.map g).sum
  | [], _, _ => rfl
  | b :: L, f, g => by
    simp only [List.map_cons, List.sum_cons]
    rw [sum_map_add L f g]
    omega

theorem sum_map_indicator {α : Type} [DecidableEq α] :
    ∀ (L : List α) (b0 : α), L.Nodup → b0 ∈ L →
      (L.map (fun b => if b = b0 then (1 : Nat) else 0)).sum = 1
  | [], b0 => by
    intro _ h
    cases h
  | b :: L, b0 => by
    intro hnd hmem
    have hnd' := List.nodup_cons.mp hnd
    rcases List.mem_cons.mp hmem with h | h
    · have hzero : (L.map (fun c => if c = b0 then (1 : Nat) else 0)).sum = 0 := by
        rw [List.sum_eq_zero]
        intro x hx
        rcases List.mem_map.mp hx with ⟨c, hc, rfl⟩
        have hcb : c ≠ b0 := by
          intro hcb
          exact hnd'.1 (by rw [← h, ← hcb]; exact hc)
        simp [hcb]
      simp [h.symm, hzero]
    · have hne : b ≠ b0 := fun hb => hnd'.1 (hb ▸ h)
      simp only [List.map_cons, List.sum_cons, if_neg hne]
      rw [sum_map_indicator L b0 hnd'.2 h]

/-- Partition of a windowed count below `p` among the next-byte children:
provided `L` (without duplicates) covers every next byte occurring below `p`,
summing the windowed counts below `p ++ [b]` over `b ∈ L` counts exactly the
messages below `p` in the window whose keys are longer than `p`. -/
theorem countP_partition (p : List Nat) (P : Msg → Bool) (L : List Nat) (hnd : L.Nodup) :
    ∀ db : List Msg,
      (∀ m ∈ db, p.isPrefixOf (key m) = true → p.length < (key m).length →
        ∀ b, (key m).get? p.length = some b → b ∈ L) →
      (L.map (fun b => db.countP (fun m => (p ++ [b]).isPrefixOf (key m) && P m))).sum
        = db.countP (fun m =>
            p.isPrefixOf (key m) && P m && decide (p.length < (key m).length))
  | [] => by
    intro _
    simp only [List.countP_nil]
    rw [List.sum_eq_zero]
    intro x hx
    rcases List.mem_map.mp hx with ⟨c, _, rfl⟩
    rfl
  | m :: db => by
    intro hcov
    have hcov' : ∀ x ∈ db, p.isPrefixOf (key x) = true → p.length < (key x).length →
        ∀ b, (key x).get? p.length = some b → b ∈ L :=
      fun x hx => hcov x (List.mem_cons_of_mem m hx)
    simp only [List.countP_cons]
    have hmapeq : (L.map (fun b =>
        db.countP (fun x => (p ++ [b]).isPrefixOf (key x) && P x)
          + if ((p ++ [b]).isPrefixOf (key m) && P m) = true then 1 else 0)).sum
        = (L.map (fun b => db.countP (fun x => (p ++ [b]).isPrefixOf (key x) && P x))).sum
          + (L.map (fun b =>
              if ((p ++ [b]).isPrefixOf (key m) && P m) = true then 1 else 0)).sum :=
      sum_map_add L _ _
    rw [hmapeq, countP_partition p P L hnd db hcov']
    congr 1
    by_cases hR : (p.isPrefixOf (key m) && P m && decide (p.length < (key m).length)) = true
    · rw [if_pos hR]
      have h1 : (p.isPrefixOf (key m) = true ∧ P m = true) ∧ p.length < (key m).length := by
        simpa using hR
      have hpre : p <+: key m := List.isPrefixOf_iff_prefix.mp h1.1.1
      have hP : P m = true := h1.1.2
      have hlen : p.length < (key m).length := h1.2
      have hget : (key m).get? p.length = some ((key m).get ⟨p.length, hlen⟩) :=
        List.get?_eq_get hlen
      set b0 := (key m).get ⟨p.length, hlen⟩ with hb0
      have hb0mem : b0 ∈ L := hcov m (List.mem_cons_self m db) h1.1.1 hlen b0 hget
      have hterm : ∀ b ∈ L,
          (if ((p ++ [b]).isPrefixOf (key m) && P m) = true then (1 : Nat) else 0)
            = if b = b0 then 1 else 0 := by
        intro b _
        by_cases hb : b = b0
        · subst hb
          have : (p ++ [b0]).isPrefixOf (key m) = true :=
            List.isPrefixOf_iff_prefix.mpr ((snoc_prefix_iff p (key m) b0).mpr ⟨hpre, hget⟩)
          simp [this, hP]
        · have : ¬ (p ++ [b]).isPrefixOf (key m) = true := by
            intro habs
            have h3 := (snoc_prefix_iff p (key m) b).mp (List.isPrefixOf_iff_prefix.mp habs)
            rw [hget] at h3
            exact hb (Option.some_injective _ h3.2.symm)
          simp [this, hb]
      rw [List.map_congr_left hterm]
      exact sum_map_indicator L b0 hnd hb0mem
    · rw [if_neg hR]
      rw [List.sum_eq_zero]
      intro x hx
      rcases List.mem_map.mp hx with ⟨b, _, rfl⟩
      have : ¬ ((p ++ [b]).isPrefixOf (key m) && P m) = true := by
        intro habs
        have h1 : (p ++ [b]).isPrefixOf (key m) = true ∧ P m = true := by
          simpa using habs
        have hsnoc := (snoc_prefix_iff p (key m) b).mp (List.isPrefixOf_iff_prefix.mp h1.1)
        have hlen : p.length < (key m).length := by
          have := (List.isPrefixOf_iff_prefix.mp h1.1).length_le
          simp only [List.length_append, List.length_cons, List.length_nil] at this
          omega
        refine hR ?_
        rw [List.isPrefixOf_iff_prefix.mpr hsnoc.1, h1.2]
        simp [hlen]
      simp [this]

theorem mem_childList {db : List Msg} {p : List Nat} {c : TrieChild}
    (hc : c ∈ childList db p) :
    ∃ b, b ∈ childBytes db p ∧ c.pfx = p ++ [b]
      ∧ c.num = (msgsUnder db (p ++ [b])).length := by
  rcases List.mem_map.mp hc with ⟨b, hb, rfl⟩
  exact ⟨b, hb, rfl, rfl⟩

theorem childList_pfx_nodup (db : List Msg) (p : List Nat) :
    ((childList db p).map TrieChild.pfx).Nodup := by
  rw [childList, List.map_map]
  have hcomp : (TrieChild.pfx ∘ fun b =>
      (⟨p ++ [b], (msgsUnder db (p ++ [b])).length⟩ : TrieChild)) = fun b => p ++ [b] := rfl
  rw [hcomp]
  refine List.Nodup.map ?_ (List.nodup_dedup _)
  intro b b' h
  simpa using List.append_cancel_left h

theorem snoc_prefix_unique {p : List Nat} {b b' : Nat} {q : List Nat}
    (h1 : (p ++ [b]) <+: q) (h2 : (p ++ [b']) <+: q) : b = b' := by
  have g1 := ((snoc_prefix_iff p q b).mp h1).2
  have g2 := ((snoc_prefix_iff p q b').mp h2).2
  rw [g1] at g2
  exact Option.some_injective _ g2

theorem boundaryPath_length {s t p : List Nat} (hs : s.length = TIMESTAMP_LENGTH)
    (ht : t.length = TIMESTAMP_LENGTH) (hp : BoundaryPath s t p) :
    p.length < TIMESTAMP_LENGTH ∨ p = t := by
  rcases hp with ⟨hps, hne⟩ | hpt
  · left
    have hle := hps.length_le
    rw [hs] at hle
    rcases Nat.lt_or_ge p.length TIMESTAMP_LENGTH with h | h
    · exact h
    · exact absurd (hps.eq_of_length (by omega)) hne
  · have hle := hpt.length_le
    rw [ht] at hle
    rcases Nat.lt_or_ge p.length TIMESTAMP_LENGTH with h | h
    · exact Or.inl h
    · exact Or.inr (hpt.eq_of_length (by omega))

/-- Every message below the start-boundary node is inside the window. -/
theorem under_start_win {s t : List Nat} (hs : s.length = TIMESTAMP_LENGTH)
    (hst : bufCompare s t = Ordering.lt) (m : Msg) (hu : s <+: key m) :
    winB s t m = true := by
  have hx : s <+: timestampToPaddedTimestampPrefix m.ts :=
    prefix_key_prefix_ts hu (le_of_eq hs)
  have hxe : timestampToPaddedTimestampPrefix m.ts = s :=
    (hx.eq_of_length (by rw [hs, timestampPrefix_length])).symm
  rw [winB, hxe]
  simp [bufCompare_self, hst]

/-- Every message below the stop-boundary node has the stop boundary itself
as its timestamp digits, hence lies outside the window. -/
theorem under_stop_not_win {s t : List Nat} (ht : t.length = TIMESTAMP_LENGTH)
    (m : Msg) (hu : t <+: key m) : ¬ winB s t m = true := by
  have hx : t <+: timestampToPaddedTimestampPrefix m.ts :=
    prefix_key_prefix_ts hu (le_of_eq ht)
  have hxe : timestampToPaddedTimestampPrefix m.ts = t :=
    (hx.eq_of_length (by rw [ht, timestampPrefix_length])).symm
  rw [winB, hxe]
  simp [bufCompare_self]

/-- Every message below a node strictly between the two boundaries (neither
of which it leads) is inside the window. -/
theorem under_between_win {s t q : List Nat} (hqlen : q.length ≤ TIMESTAMP_LENGTH)
    (hgt : bufCompare q s = Ordering.gt) (hlt : bufCompare q t = Ordering.lt)
    (hnpt : ¬ q <+: t) (m : Msg) (hu : q <+: key m) : winB s t m = true := by
  have hx : q <+: timestampToPaddedTimestampPrefix m.ts := prefix_key_prefix_ts hu hqlen
  have h1 : bufCompare (timestampToPaddedTimestampPrefix m.ts) s = Ordering.gt :=
    bufCompare_gt_of_prefix_gt q _ s hx hgt
  have h2 : bufCompare (timestampToPaddedTimestampPrefix m.ts) t = Ordering.lt :=
    bufCompare_lt_of_prefix_lt q _ t hx hlt hnpt
  rw [winB, h1, h2]
  simp

/-- A skipped child (no branch of the loop applies to it) has no message of
the window below it. -/
theorem skipped_child_not_win {s t p : List Nat} {b : Nat}
    (hs : s.length = TIMESTAMP_LENGTH) (ht : t.length = TIMESTAMP_LENGTH)
    (hp : BoundaryPath s t p)
    (hne : ¬ bufCompare (p ++ [b]) s = Ordering.eq)
    (hnps : ¬ (p ++ [b]) <+: s) (hnpt : ¬ (p ++ [b]) <+: t)
    (hnbetween : ¬ (bufCompare (p ++ [b]) s = Ordering.gt
      ∧ bufCompare (p ++ [b]) t = Ordering.lt))
    (m : Msg) (hu : (p ++ [b]) <+: key m) : ¬ winB s t m = true := by
  rcases boundaryPath_length hs ht hp with hplen | hpt
  · have hqlen : (p ++ [b]).length ≤ TIMESTAMP_LENGTH := by
      simp only [List.length_append, List.length_cons, List.length_nil]
      omega
    have hx : (p ++ [b]) <+: timestampToPaddedTimestampPrefix m.ts :=
      prefix_key_prefix_ts hu hqlen
    intro hwin
    rw [winB] at hwin
    simp only [Bool.and_eq_true, decide_eq_true_eq] at hwin
    cases hcs : bufCompare (p ++ [b]) s with
    | eq => exact hne hcs
    | lt =>
      exact hwin.1 (bufCompare_lt_of_prefix_lt (p ++ [b]) _ s hx hcs hnps)
    | gt =>
      cases hct : bufCompare (p ++ [b]) t with
      | lt => exact hnbetween ⟨hcs, hct⟩
      | eq => exact hnpt (((bufCompare_eq_iff _ _).mp hct) ▸ List.prefix_refl _)
      | gt =>
        have := bufCompare_gt_of_prefix_gt (p ++ [b]) _ t hx hct
        rw [hwin.2] at this
        cases this
  · intro hwin
    have hut : t <+: key m := by
      rw [hpt] at hu
      exact (List.prefix_append t [b]).trans hu
    exact under_stop_not_win ht m hut hwin

/-- The windowed count below a node all of whose messages are in the window
is its plain message count. -/
theorem cntWin_eq_length_of_all_win {db : List Msg} {s t q : List Nat}
    (hall : ∀ m ∈ db, q.isPrefixOf (key m) = true → winB s t m = true) :
    cntWin db s t q = (msgsUnder db q).length := by
  rw [cntWin, msgsUnder, ← List.countP_eq_length_filter]
  refine countP_congr_mem _ _ _ ?_
  intro m hm
  cases hq : q.isPrefixOf (key m)
  · simp
  · simp [hall m hm hq]

/-- A node with no window message below it has windowed count zero. -/
theorem cntWin_eq_zero_of_none_win {db : List Msg} {s t q : List Nat}
    (hnone : ∀ m ∈ db, q <+: key m → ¬ winB s t m = true) :
    cntWin db s t q = 0 := by
  rw [cntWin, List.countP_eq_zero]
  intro m hm habs
  simp only [Bool.and_eq_true] at habs
  exact hnone m hm (List.isPrefixOf_iff_prefix.mp habs.1) habs.2

/-- Every child listed for a node exists in the trie: fetching its metadata
succeeds. -/
theorem getMetadata_isSome_of_childList (db : List Msg) (p : List Nat) {c : TrieChild}
    (hc : c ∈ childList db p) : ∃ meta, getMetadata db c.pfx = some meta := by
  rcases mem_childList hc with ⟨b, hb, hcpfx, _⟩
  rw [childBytes, List.mem_dedup, List.mem_filterMap] at hb
  obtain ⟨m, hm, hmb⟩ := hb
  have hpre : p.isPrefixOf (key m) = true := by
    by_contra habs
    rw [if_neg habs] at hmb
    cases hmb
  rw [if_pos hpre] at hmb
  have hsnoc : (p ++ [b]) <+: key m :=
    (snoc_prefix_iff p (key m) b).mpr ⟨List.isPrefixOf_iff_prefix.mp hpre, hmb⟩
  have hmem : m ∈ msgsUnder db c.pfx := by
    rw [hcpfx, msgsUnder, List.mem_filter]
    exact ⟨hm, List.isPrefixOf_iff_prefix.mpr hsnoc⟩
  have hne : ¬ (msgsUnder db c.pfx).isEmpty = true := by
    intro habs
    rw [List.isEmpty_iff] at habs
    rw [habs] at hmem
    cases hmem
  rw [getMetadata, if_neg hne]
  exact ⟨_, rfl⟩

/-- Soundness of the child loop: assuming the recursive calls on the node's
children behave when they return a result (`hrec`) and do return one on every
child the loop recurses into (`hrecsome`; both hold for the in-process trie,
where every listed child exists — the silent discard of a failed recursive
call at source line 236 is then never exercised), a run over a sub-list of
`p`'s children returns visited counts summing to the windowed counts below
those children, visits only descendants of distinct children (each carrying
its true count, with everything below it inside the window, and no node
twice), and logs only descendants of the children, without duplicates. -/
theorem goChildren_sound (db : List Msg) (s t : List Nat)
    (hs : s.length = TIMESTAMP_LENGTH) (ht : t.length = TIMESTAMP_LENGTH)
    (hst : bufCompare s t = Ordering.lt)
    (recurse : List Nat → Option (List TrieChild × List (List Nat)))
    (p : List Nat) (hp : BoundaryPath s t p)
    (hrec : ∀ c' ∈ childList db p, BoundaryPath s t c'.pfx →
      ∀ vis log, recurse c'.pfx = some (vis, log) → TraversalOK db s t c'.pfx vis log)
    (hrecsome : ∀ c' ∈ childList db p,
      (c'.pfx.isPrefixOf s || c'.pfx.isPrefixOf t) = true →
      ∃ vis log, recurse c'.pfx = some (vis, log)) :
    ∀ cs : List TrieChild, cs.Sublist (childList db p) →
      ∀ vis log, goChildren s t recurse cs = (vis, log) →
        (vis.map TrieChild.num).sum = (cs.map (fun c => cntWin db s t c.pfx)).sum
        ∧ (∀ c ∈ vis, (∃ c' ∈ cs, c'.pfx <+: c.pfx)
            ∧ c.num = (msgsUnder db c.pfx).length
            ∧ ∀ m ∈ db, c.pfx.isPrefixOf (key m) = true → winB s t m = true)
        ∧ (vis.map TrieChild.pfx).Nodup
        ∧ log.Nodup
        ∧ (∀ q ∈ log, ∃ c' ∈ cs, c'.pfx <+: q)
  | [] => by
    intro _ vis log hrun
    replace hrun : (([] : List TrieChild), ([] : List (List Nat))) = (vis, log) := hrun
    simp only [Prod.mk.injEq] at hrun
    obtain ⟨hv, hl⟩ := hrun
    subst hv; subst hl
    refine ⟨by simp, ?_, by simp, by simp, ?_⟩
    · intro c hc
      cases hc
    · intro q hq
      cases hq
  | child :: rest => by
    intro hsub vis log hrun
    have hchild_mem : child ∈ childList db p := hsub.subset (List.mem_cons_self _ _)
    have hrest_sub : rest.Sublist (childList db p) := List.sublist_of_cons_sublist hsub
    rcases mem_childList hchild_mem with ⟨b, hbmem, hcpfx, hcnum⟩
    have hcs_nodup : ((child :: rest).map TrieChild.pfx).Nodup :=
      List.Nodup.sublist (List.Sublist.map TrieChild.pfx hsub) (childList_pfx_nodup db p)
    simp only [List.map_cons] at hcs_nodup
    have hnotin : child.pfx ∉ rest.map TrieChild.pfx := (List.nodup_cons.mp hcs_nodup).1
    have hpfx_ne : ∀ c' ∈ rest, child.pfx ≠ c'.pfx := by
      intro c' hc' heq
      exact hnotin (heq ▸ List.mem_map_of_mem TrieChild.pfx hc')
    have hsep : ∀ q1 q2 : List Nat, child.pfx <+: q1 →
        (∃ c' ∈ rest, c'.pfx <+: q2) → q1 ≠ q2 := by
      rintro q1 q2 hq1 ⟨c', hc', hq2⟩ rfl
      rcases mem_childList (hrest_sub.subset hc') with ⟨b', _, hc'pfx, _⟩
      rw [hcpfx] at hq1
      rw [hc'pfx] at hq2
      have hbb : b = b' := snoc_prefix_unique hq1 hq2
      exact hpfx_ne c' hc' (by rw [hcpfx, hc'pfx, hbb])
    have hchild_len : child.pfx.length = p.length + 1 := by
      rw [hcpfx]; simp
    simp only [goChildren] at hrun
    split_ifs at hrun with h1 h2 h3
    · -- the child is exactly the start boundary: visit it
      have heq : child.pfx = s := (bufCompare_eq_iff _ _).mp h1
      rcases hgo : goChildren s t recurse rest with ⟨vis', log'⟩
      rw [hgo] at hrun
      simp only [Prod.mk.injEq] at hrun
      obtain ⟨hv, hl⟩ := hrun
      subst hv; subst hl
      obtain ⟨ihsum, ihvis, ihnd, ihlognd, ihlog⟩ :=
        goChildren_sound db s t hs ht hst recurse p hp hrec hrecsome rest hrest_sub
          vis' log' hgo
      have hwin_child : ∀ m ∈ db, child.pfx.isPrefixOf (key m) = true →
          winB s t m = true := by
        intro m hm hpre
        exact under_start_win hs hst m (heq ▸ List.isPrefixOf_iff_prefix.mp hpre)
      have hcnt : cntWin db s t child.pfx = (msgsUnder db child.pfx).length :=
        cntWin_eq_length_of_all_win hwin_child
      have hnum' : child.num = (msgsUnder db child.pfx).length := by
        rw [hcnum, hcpfx]
      refine ⟨?_, ?_, ?_, ihlognd, ?_⟩
      · simp only [List.map_cons, List.sum_cons, ihsum, hnum', hcnt]
      · intro c hc
        rcases List.mem_cons.mp hc with h | h
        · rw [h]
          exact ⟨⟨child, List.mem_cons_self _ _, List.prefix_refl _⟩, hnum', hwin_child⟩
        · obtain ⟨⟨c', hc', hpre⟩, hnum, hwin⟩ := ihvis c h
          exact ⟨⟨c', List.mem_cons_of_mem _ hc', hpre⟩, hnum, hwin⟩
      · simp only [List.map_cons, List.nodup_cons]
        refine ⟨?_, ihnd⟩
        intro habs
        rcases List.mem_map.mp habs with ⟨c, hcvis, hceq⟩
        obtain ⟨⟨c', hc', hpre⟩, _, _⟩ := ihvis c hcvis
        rcases mem_childList (hrest_sub.subset hc') with ⟨b', _, hc'pfx, _⟩
        have hpre' : c'.pfx <+: child.pfx := hceq ▸ hpre
        have : c'.pfx = child.pfx :=
          hpre'.eq_of_length (by rw [hc'pfx, hcpfx]; simp)
        exact hpfx_ne c' hc' this.symm
      · intro q hq
        obtain ⟨c', hc', hpre⟩ := ihlog q hq
        exact ⟨c', List.mem_cons_of_mem _ hc', hpre⟩
    · -- the child leads one of the boundaries: recurse into it (a recursion
      -- that returns no result would be discarded, but hrecsome rules it out)
      obtain ⟨vis1, log1, hr⟩ := hrecsome child hchild_mem h2
      simp only [Bool.or_eq_true, List.isPrefixOf_iff_prefix] at h2
      have hbp_child : BoundaryPath s t child.pfx := by
        rcases h2 with h | h
        · refine Or.inl ⟨h, ?_⟩
          intro habs
          exact h1 (habs ▸ bufCompare_self child.pfx)
        · exact Or.inr h
      simp only [hr] at hrun
      rcases hgo : goChildren s t recurse rest with ⟨vis2, log2⟩
      rw [hgo] at hrun
      simp only [Prod.mk.injEq] at hrun
      obtain ⟨hv, hl⟩ := hrun
      subst hv; subst hl
      obtain ⟨hsum1, hvis1, hnd1, hlognd1, restLog1, hlog1eq, hlog1ext⟩ :=
        hrec child hchild_mem hbp_child vis1 log1 hr
      obtain ⟨ihsum, ihvis, ihnd, ihlognd, ihlog⟩ :=
        goChildren_sound db s t hs ht hst recurse p hp hrec hrecsome rest hrest_sub
          vis2 log2 hgo
      have hlog1all : ∀ q ∈ log1, child.pfx <+: q := by
        intro q hq
        rw [hlog1eq] at hq
        rcases List.mem_cons.mp hq with h | h
        · exact h ▸ List.prefix_refl _
        · exact (hlog1ext q h).1
      refine ⟨?_, ?_, ?_, ?_, ?_⟩
      · simp only [List.map_append, List.sum_append, List.map_cons, List.sum_cons,
          hsum1, ihsum]
      · intro c hc
        rcases List.mem_append.mp hc with h | h
        · obtain ⟨hpre, _, hnum, hwin⟩ := hvis1 c h
          exact ⟨⟨child, List.mem_cons_self _ _, hpre⟩, hnum, hwin⟩
        · obtain ⟨⟨c', hc', hpre⟩, hnum, hwin⟩ := ihvis c h
          exact ⟨⟨c', List.mem_cons_of_mem _ hc', hpre⟩, hnum, hwin⟩
      · rw [List.map_append, List.nodup_append]
        refine ⟨hnd1, ihnd, ?_⟩
        intro q1 hq1 hq2
        rcases List.mem_map.mp hq1 with ⟨c1, hc1, rfl⟩
        rcases List.mem_map.mp hq2 with ⟨c2, hc2, hceq⟩
        obtain ⟨⟨c', hc', hpre⟩, _, _⟩ := ihvis c2 hc2
        exact hsep c1.pfx c1.pfx (hvis1 c1 hc1).1
          ⟨c', hc', hceq ▸ hpre⟩ rfl
      · rw [List.nodup_append]
        refine ⟨hlognd1, ihlognd, ?_⟩
        intro q1 hq1 hq2
        obtain ⟨c', hc', hpre⟩ := ihlog q1 hq2
        exact hsep q1 q1 (hlog1all q1 hq1) ⟨c', hc', hpre⟩ rfl
      · intro q hq
        rcases List.mem_append.mp hq with h | h
        · exact ⟨child, List.mem_cons_self _ _, hlog1all q h⟩
        · obtain ⟨c', hc', hpre⟩ := ihlog q h
          exact ⟨c', List.mem_cons_of_mem _ hc', hpre⟩
    · -- the child lies strictly between the boundaries: visit it
      simp only [Bool.and_eq_true, decide_eq_true_eq] at h3
      obtain ⟨hgt, hlt⟩ := h3
      simp only [Bool.or_eq_true, List.isPrefixOf_iff_prefix, not_or] at h2
      obtain ⟨hnps, hnpt⟩ := h2
      rcases hgo : goChildren s t recurse rest with ⟨vis', log'⟩
      rw [hgo] at hrun
      simp only [Prod.mk.injEq] at hrun
      obtain ⟨hv, hl⟩ := hrun
      subst hv; subst hl
      obtain ⟨ihsum, ihvis, ihnd, ihlognd, ihlog⟩ :=
        goChildren_sound db s t hs ht hst recurse p hp hrec hrecsome rest hrest_sub
          vis' log' hgo
      have hqlen : child.pfx.length ≤ TIMESTAMP_LENGTH := by
        rcases boundaryPath_length hs ht hp with h | h
        · omega
        · exfalso
          have : bufCompare child.pfx t = Ordering.gt := by
            rw [hcpfx, h]
            refine bufCompare_gt_of_proper_prefix t _ (List.prefix_append t [b]) ?_
            intro habs
            have := congrArg List.length habs
            simp at this
          rw [hlt] at this
          cases this
      have hwin_child : ∀ m ∈ db, child.pfx.isPrefixOf (key m) = true →
          winB s t m = true := by
        intro m hm hpre
        exact under_between_win hqlen hgt hlt hnpt m (List.isPrefixOf_iff_prefix.mp hpre)
      have hcnt : cntWin db s t child.pfx = (msgsUnder db child.pfx).length :=
        cntWin_eq_length_of_all_win hwin_child
      have hnum' : child.num = (msgsUnder db child.pfx).length := by
        rw [hcnum, hcpfx]
      refine ⟨?_, ?_, ?_, ihlognd, ?_⟩
      · simp only [List.map_cons, List.sum_cons, ihsum, hnum', hcnt]
      · intro c hc
        rcases List.mem_cons.mp hc with h | h
        · rw [h]
          exact ⟨⟨child, List.mem_cons_self _ _, List.prefix_refl _⟩, hnum', hwin_child⟩
        · obtain ⟨⟨c', hc', hpre⟩, hnum, hwin⟩ := ihvis c h
          exact ⟨⟨c', List.mem_cons_of_mem _ hc', hpre⟩, hnum, hwin⟩
      · simp only [List.map_cons, List.nodup_cons]
        refine ⟨?_, ihnd⟩
        intro habs
        rcases List.mem_map.mp habs with ⟨c, hcvis, hceq⟩
        obtain ⟨⟨c', hc', hpre⟩, _, _⟩ := ihvis c hcvis
        rcases mem_childList (hrest_sub.subset hc') with ⟨b', _, hc'pfx, _⟩
        have hpre' : c'.pfx <+: child.pfx := hceq ▸ hpre
        have : c'.pfx = child.pfx :=
          hpre'.eq_of_length (by rw [hc'pfx, hcpfx]; simp)
        exact hpfx_ne c' hc' this.symm
      · intro q hq
        obtain ⟨c', hc', hpre⟩ := ihlog q hq
        exact ⟨c', List.mem_cons_of_mem _ hc', hpre⟩
    · -- the child is skipped: nothing of the window lies below it
      simp only [Bool.or_eq_true, List.isPrefixOf_iff_prefix, not_or] at h2
      obtain ⟨hnps, hnpt⟩ := h2
      simp only [Bool.and_eq_true, decide_eq_true_eq, not_and] at h3
      obtain ⟨ihsum, ihvis, ihnd, ihlognd, ihlog⟩ :=
        goChildren_sound db s t hs ht hst recurse p hp hrec hrecsome rest hrest_sub
          vis log hrun
      have hzero : cntWin db s t child.pfx = 0 := by
        refine cntWin_eq_zero_of_none_win ?_
        intro m hm hu
        rw [hcpfx] at hu
        refine skipped_child_not_win hs ht hp ?_ ?_ ?_ ?_ m hu
        · rw [← hcpfx]; exact h1
        · rw [← hcpfx]; exact hnps
        · rw [← hcpfx]; exact hnpt
        · rw [← hcpfx]
          intro habs
          exact h3 habs.1 habs.2
      refine ⟨?_, ?_, ihnd, ihlognd, ?_⟩
      · simp only [List.map_cons, List.sum_cons, ihsum, hzero]
        omega
      · intro c hc
        obtain ⟨⟨c', hc', hpre⟩, hnum, hwin⟩ := ihvis c hc
        exact ⟨⟨c', List.mem_cons_of_mem _ hc', hpre⟩, hnum, hwin⟩
      · intro q hq
        obtain ⟨c', hc', hpre⟩ := ihlog q hq
        exact ⟨c', List.mem_cons_of_mem _ hc', hpre⟩

/-- Soundness of `traverseRange` from any node on a boundary path, given
enough fuel for the remaining descent (so that the model's fuel exhaustion,
which the loop would silently discard like a failed recursive call, cannot
occur): on success, the visited counts sum to the windowed count below the
node, no node is visited or queried twice, and the query log consists of the
node followed by strict descendants. -/
theorem traverseRange_sound (db : List Msg) (s t : List Nat)
    (hs : s.length = TIMESTAMP_LENGTH) (ht : t.length = TIMESTAMP_LENGTH)
    (hst : bufCompare s t = Ordering.lt) :
    ∀ fuel p, BoundaryPath s t p → TIMESTAMP_LENGTH + 1 ≤ fuel + p.length →
      ∀ vis log, traverseRange db s t fuel p = some (vis, log) →
        TraversalOK db s t p vis log
  | 0 => by
    intro p hp hfuel vis log hrun
    cases hrun
  | fuel + 1 => by
    intro p hp hfuel vis log hrun
    simp only [traverseRange] at hrun
    split at hrun
    · cases hrun
    · rename_i meta hmeta
      rcases hgo : goChildren s t (traverseRange db s t fuel) meta.children
        with ⟨vis', log'⟩
      rw [hgo] at hrun
      simp only [Option.some.injEq, Prod.mk.injEq] at hrun
      obtain ⟨hv, hl⟩ := hrun
      subst hv; subst hl
      have hch : meta.children = childList db p := by
        rw [getMetadata] at hmeta
        split at hmeta
        · cases hmeta
        · injection hmeta with hh
          rw [← hh]
      rw [hch] at hgo
      have hrec' : ∀ c' ∈ childList db p, BoundaryPath s t c'.pfx →
          ∀ vis1 log1, traverseRange db s t fuel c'.pfx = some (vis1, log1) →
            TraversalOK db s t c'.pfx vis1 log1 := by
        intro c' hc' hbp vis1 log1 hr
        rcases mem_childList hc' with ⟨b', _, hc'pfx, _⟩
        refine traverseRange_sound db s t hs ht hst fuel c'.pfx hbp ?_ vis1 log1 hr
        rw [hc'pfx]
        simp only [List.length_append, List.length_cons, List.length_nil]
        omega
      have hrecsome' : ∀ c' ∈ childList db p,
          (c'.pfx.isPrefixOf s || c'.pfx.isPrefixOf t) = true →
          ∃ vis1 log1, traverseRange db s t fuel c'.pfx = some (vis1, log1) := by
        intro c' hc' hguard
        obtain ⟨meta', hmeta'⟩ := getMetadata_isSome_of_childList db p hc'
        have hclen : c'.pfx.length ≤ TIMESTAMP_LENGTH := by
          simp only [Bool.or_eq_true, List.isPrefixOf_iff_prefix] at hguard
          rcases hguard with h | h
          · have hle := h.length_le
            rw [hs] at hle
            exact hle
          · have hle := h.length_le
            rw [ht] at hle
            exact hle
        rcases mem_childList hc' with ⟨b', _, hc'pfx, _⟩
        have hplen : c'.pfx.length = p.length + 1 := by
          rw [hc'pfx]
          simp
        obtain ⟨f', rfl⟩ : ∃ f', fuel = f' + 1 := ⟨fuel - 1, by omega⟩
        exact ⟨(goChildren s t (traverseRange db s t f') meta'.children).1,
          c'.pfx :: (goChildren s t (traverseRange db s t f') meta'.children).2,
          by simp only [traverseRange, hmeta']⟩
      obtain ⟨hsum, hvisC, hnd, hlognd, hlogC⟩ :=
        goChildren_sound db s t hs ht hst (traverseRange db s t fuel) p hp
          hrec' hrecsome' (childList db p) (List.Sublist.refl _) vis' log' hgo
      have hcov : ∀ m ∈ db, p.isPrefixOf (key m) = true → p.length < (key m).length →
          ∀ b, (key m).get? p.length = some b → b ∈ childBytes db p := by
        intro m hm hpre _ b hget
        rw [childBytes, List.mem_dedup]
        exact List.mem_filterMap.mpr ⟨m, hm, by rw [if_pos hpre]; exact hget⟩
      have hpart := countP_partition p (winB s t) (childBytes db p)
        (List.nodup_dedup _) db hcov
      have h1 : cntWin db s t p
          = db.countP (fun m =>
              p.isPrefixOf (key m) && winB s t m && decide (p.length < (key m).length))
            + db.countP (fun m =>
              p.isPrefixOf (key m) && winB s t m && !(decide (p.length < (key m).length))) :=
        countP_and_not_split db _ _
      have hleft : db.countP (fun m =>
          p.isPrefixOf (key m) && winB s t m && !(decide (p.length < (key m).length))) = 0 := by
        rw [List.countP_eq_zero]
        intro m hm habs
        simp only [Bool.and_eq_true, Bool.not_eq_true', decide_eq_false_iff_not] at habs
        obtain ⟨⟨hpre, hwin⟩, hlen⟩ := habs
        have hpre' : p <+: key m := List.isPrefixOf_iff_prefix.mp hpre
        have hlen2 := hpre'.length_le
        have hkey := length_key_ge m
        rcases boundaryPath_length hs ht hp with h | h
        · omega
        · rw [h] at hpre'
          exact under_stop_not_win ht m hpre' hwin
      have hfinal : (vis'.map TrieChild.num).sum = cntWin db s t p := by
        rw [hsum]
        calc ((childList db p).map (fun c => cntWin db s t c.pfx)).sum
            = ((childBytes db p).map (fun b => cntWin db s t (p ++ [b]))).sum := by
              simp only [childList, List.map_map]
              rfl
          _ = db.countP (fun m =>
              p.isPrefixOf (key m) && winB s t m && decide (p.length < (key m).length)) :=
              hpart
          _ = cntWin db s t p := by
              rw [h1, hleft]
              omega
      refine ⟨hfinal, ?_, hnd, ?_, log', rfl, ?_⟩
      · intro c hc
        obtain ⟨⟨c', hc', hpre⟩, hnum, hwin⟩ := hvisC c hc
        rcases mem_childList hc' with ⟨b', _, hc'pfx, _⟩
        have hp1 : p <+: c.pfx := (hc'pfx ▸ List.prefix_append p [b']).trans hpre
        have hp2 : p.length < c.pfx.length := by
          have := hpre.length_le
          rw [hc'pfx] at this
          simp at this
          omega
        exact ⟨hp1, hp2, hnum, hwin⟩
      · rw [List.nodup_cons]
        refine ⟨?_, hlognd⟩
        intro habs
        obtain ⟨c', hc', hpre⟩ := hlogC p habs
        rcases mem_childList hc' with ⟨b', _, hc'pfx, _⟩
        have := hpre.length_le
        rw [hc'pfx] at this
        simp at this
      · intro q hq
        obtain ⟨c', hc', hpre⟩ := hlogC q hq
        rcases mem_childList hc' with ⟨b', _, hc'pfx, _⟩
        have hp1 : p <+: q := (hc'pfx ▸ List.prefix_append p [b']).trans hpre
        have hp2 : p.length < q.length := by
          have := hpre.length_le
          rw [hc'pfx] at this
          simp at this
          omega
        exact ⟨hp1, hp2⟩

/-- In the degenerate window whose two boundaries coincide, the child loop at
the boundary node itself visits nothing and queries nothing: every child is a
proper extension of the boundary, so no branch applies. -/
theorem goChildren_degenerate (db : List Msg) (s : List Nat)
    (recurse : List Nat → Option (List TrieChild × List (List Nat))) :
    ∀ cs : List TrieChild, cs.Sublist (childList db s) →
      ∀ vis log, goChildren s s recurse cs = (vis, log) → vis = [] ∧ log = []
  | [] => by
    intro _ vis log hrun
    replace hrun : (([] : List TrieChild), ([] : List (List Nat))) = (vis, log) := hrun
    simp only [Prod.mk.injEq] at hrun
    exact ⟨hrun.1.symm, hrun.2.symm⟩
  | child :: rest => by
    intro hsub vis log hrun
    have hchild_mem : child ∈ childList db s := hsub.subset (List.mem_cons_self _ _)
    have hrest_sub := List.sublist_of_cons_sublist hsub
    rcases mem_childList hchild_mem with ⟨b, _, hcpfx, _⟩
    have hgts : bufCompare child.pfx s = Ordering.gt := by
      rw [hcpfx]
      refine bufCompare_gt_of_proper_prefix s _ (List.prefix_append s [b]) ?_
      intro habs
      have := congrArg List.length habs
      simp at this
    simp only [goChildren] at hrun
    split_ifs at hrun with hc1 hc2 hc3
    · rw [hgts] at hc1
      cases hc1
    · exfalso
      simp only [Bool.or_self, List.isPrefixOf_iff_prefix] at hc2
      have := hc2.length_le
      rw [hcpfx] at this
      simp at this
    · exfalso
      simp only [Bool.and_eq_true, decide_eq_true_eq] at hc3
      have := hc3.2
      rw [hgts] at this
      cases this
    · exact goChildren_degenerate db s recurse rest hrest_sub vis log hrun

/-- Characterisation of a successful `getPrefixInfo` run: both instants are
representable, the returned boundary prefixes are their encodings, and the
returned metadata is keyed by the boundaries' common prefix. -/
theorem getPrefixInfo_some {db : List Msg} {startTime stopTime : Nat} {info : PrefixInfo}
    (h : getPrefixInfo db startTime stopTime = some info) :
    startTime < 10 ^ TIMESTAMP_LENGTH ∧ stopTime < 10 ^ TIMESTAMP_LENGTH
    ∧ info.startTimePrefix = timestampToPaddedTimestampPrefix startTime
    ∧ info.stopTimePrefix = timestampToPaddedTimestampPrefix stopTime
    ∧ info.commonPrefixMetadata.pfx
        = getCommonPrefix info.startTimePrefix info.stopTimePrefix := by
  rw [getPrefixInfo] at h
  split at h
  · cases h
  · rename_i stp heq1
    split at h
    · cases h
    · rename_i sp heq2
      split at h
      · cases h
      · rename_i meta hmeta
        simp only [Option.some.injEq] at h
        subst h
        rw [getTimePrefix] at heq1 heq2
        split_ifs at heq1 with hb1
        split_ifs at heq2 with hb2
        simp only [Option.some.injEq] at heq1 heq2
        subst heq1; subst heq2
        refine ⟨hb1, hb2, rfl, rfl, ?_⟩
        rw [getMetadata] at hmeta
        split at hmeta
        · cases hmeta
        · injection hmeta with hh
          rw [← hh]

/-- One-step unfolding of `traverseRange` at positive fuel. -/
theorem traverseRange_succ (db : List Msg) (s t : List Nat) (fuel : Nat) (p : List Nat) :
    traverseRange db s t (fuel + 1) p
      = match getMetadata db p with
        | none => none
        | some meta =>
          some ((goChildren s t (traverseRange db s t fuel) meta.children).1,
            p :: (goChildren s t (traverseRange db s t fuel) meta.children).2) := rfl

set_option maxHeartbeats 1600000 in
/-- Master soundness lemma for one run of the optimized span traversal
(common-prefix fetch followed by `traverseRange` from the common-prefix
node): the visited counts sum to the number of messages of the time window
(when the replica's timestamps are representable), nothing is visited twice,
the traversal's own query log is duplicate-free and starts with the
common-prefix node, each visited node carries its true count, and every
message below a visited node lies in the time window. -/
theorem span_traversal_master (db : List Msg) (startTime stopTime : Nat)
    (hord : startTime ≤ stopTime)
    (info : PrefixInfo) (hinfo : getPrefixInfo db startTime stopTime = some info)
    (vis : List TrieChild) (log : List (List Nat))
    (htrav : traverseRange db info.startTimePrefix info.stopTimePrefix traverseFuel
      info.commonPrefixMetadata.pfx = some (vis, log)) :
    ((∀ m ∈ db, m.ts < 10 ^ TIMESTAMP_LENGTH) →
        (vis.map TrieChild.num).sum
          = db.countP (fun m => decide (startTime ≤ m.ts) && decide (m.ts < stopTime)))
    ∧ (vis.map TrieChild.pfx).Nodup
    ∧ log.Nodup
    ∧ (∃ rest, log = info.commonPrefixMetadata.pfx :: rest)
    ∧ (∀ c ∈ vis, c.num = (msgsUnder db c.pfx).length)
    ∧ ((∀ m ∈ db, m.ts < 10 ^ TIMESTAMP_LENGTH) →
        ∀ c ∈ vis, ∀ m ∈ db, c.pfx.isPrefixOf (key m) = true →
          (decide (startTime ≤ m.ts) && decide (m.ts < stopTime)) = true) := by
  obtain ⟨hb1, hb2, hsp, htp, hcp⟩ := getPrefixInfo_some hinfo
  rcases Nat.eq_or_lt_of_le hord with heq | hlt
  · -- degenerate window: both boundaries coincide
    subst heq
    have hts : info.stopTimePrefix = info.startTimePrefix := by
      rw [htp, hsp]
    have hcps : info.commonPrefixMetadata.pfx = info.startTimePrefix := by
      rw [hcp, hts, getCommonPrefix_self]
    rw [hts, hcps] at htrav
    have h21 : traverseFuel = 2 * TIMESTAMP_LENGTH + 1 := rfl
    rw [h21, traverseRange_succ] at htrav
    split at htrav
    · cases htrav
    · rename_i meta hmeta
      rcases hgo : goChildren info.startTimePrefix info.startTimePrefix
          (traverseRange db info.startTimePrefix info.startTimePrefix
            (2 * TIMESTAMP_LENGTH)) meta.children with ⟨vis1, log1⟩
      simp only [hgo, Option.some.injEq, Prod.mk.injEq] at htrav
      obtain ⟨hv, hl⟩ := htrav
      have hch : meta.children = childList db info.startTimePrefix := by
          rw [getMetadata] at hmeta
          split at hmeta
          · cases hmeta
          · injection hmeta with hh
            rw [← hh]
      rw [hch] at hgo
      obtain ⟨hv1, hl1⟩ := goChildren_degenerate db info.startTimePrefix _
        (childList db info.startTimePrefix) (List.Sublist.refl _) vis1 log1 hgo
      subst hv1; subst hl1
      subst hv; subst hl
      refine ⟨?_, by simp, by simp, ⟨[], by rw [hcps]⟩, ?_, ?_⟩
      · intro _
        simp only [List.map_nil, List.sum_nil]
        symm
        rw [List.countP_eq_zero]
        intro m _ habs
        simp only [Bool.and_eq_true, decide_eq_true_eq] at habs
        omega
      · intro c hc
        cases hc
      · intro _ c hc
        cases hc
  · -- genuine window: the boundaries differ
    have hs : info.startTimePrefix.length = TIMESTAMP_LENGTH := by
      rw [hsp, timestampPrefix_length]
    have ht : info.stopTimePrefix.length = TIMESTAMP_LENGTH := by
      rw [htp, timestampPrefix_length]
    have hst : bufCompare info.startTimePrefix info.stopTimePrefix = Ordering.lt := by
      rw [hsp, htp]
      exact (timestampPrefix_lt_iff startTime stopTime hb1 hb2).mpr hlt
    have hbp : BoundaryPath info.startTimePrefix info.stopTimePrefix
        info.commonPrefixMetadata.pfx := by
      rw [hcp]
      refine Or.inl ⟨getCommonPrefix_prefix_left _ _, ?_⟩
      intro habs
      have hsub : info.startTimePrefix <+: info.stopTimePrefix :=
        habs ▸ getCommonPrefix_prefix_right _ _
      have : info.startTimePrefix = info.stopTimePrefix :=
        hsub.eq_of_length (by rw [hs, ht])
      rw [this, bufCompare_self] at hst
      cases hst
    obtain ⟨hsum, hvis, hnd, hlognd, restLog, hlogeq, _⟩ :=
      traverseRange_sound db info.startTimePrefix info.stopTimePrefix hs ht hst
        traverseFuel info.commonPrefixMetadata.pfx hbp
        (by have h21 : traverseFuel = 2 * TIMESTAMP_LENGTH + 1 := rfl
            rw [h21]; omega) vis log htrav
    have hbridge : ∀ hdb : ∀ m ∈ db, m.ts < 10 ^ TIMESTAMP_LENGTH, ∀ m ∈ db,
        winB info.startTimePrefix info.stopTimePrefix m
          = (decide (startTime ≤ m.ts) && decide (m.ts < stopTime)) := by
      intro hdb m hm
      have hx1 : (¬ bufCompare (timestampToPaddedTimestampPrefix m.ts)
          info.startTimePrefix = Ordering.lt ↔ startTime ≤ m.ts) := by
        rw [hsp]
        exact timestampPrefix_not_lt_iff m.ts startTime (hdb m hm) hb1
      have hx2 : (bufCompare (timestampToPaddedTimestampPrefix m.ts)
          info.stopTimePrefix = Ordering.lt ↔ m.ts < stopTime) := by
        rw [htp]
        exact timestampPrefix_lt_iff m.ts stopTime (hdb m hm) hb2
      rw [winB]
      rw [decide_eq_decide.mpr hx1, decide_eq_decide.mpr hx2]
    refine ⟨?_, hnd, hlognd, ⟨restLog, hlogeq⟩, ?_, ?_⟩
    · intro hdb
      rw [hsum, cntWin]
      refine countP_congr_mem db _ _ ?_
      intro m hm
      rw [← hbridge hdb m hm]
      by_cases hw : winB info.startTimePrefix info.stopTimePrefix m = true
      · have hwin' := hw
        rw [winB] at hwin'
        simp only [Bool.and_eq_true, decide_eq_true_eq] at hwin'
        have hcpre : info.commonPrefixMetadata.pfx <+: key m := by
          rw [hcp]
          exact (getCommonPrefix_prefix_of_between _ _ _ hwin'.1 hwin'.2).trans
            (timestampPrefix_prefix_key m)
        rw [List.isPrefixOf_iff_prefix.mpr hcpre, hw]
        rfl
      · have hwB : winB info.startTimePrefix info.stopTimePrefix m = false := by
          revert hw
          cases winB info.startTimePrefix info.stopTimePrefix m <;> simp
        rw [hwB, Bool.and_false]
    · intro c hc
      exact ((hvis c hc).2.2).1
    · intro hdb c hc m hm hpre
      rw [← hbridge hdb m hm]
      exact (hvis c hc).2.2.2 m hm hpre

/-! Facts about the identifier collection step. -/
theorem collectSyncIds_goodFetch_cons (db : List Msg) (p : List Nat)
    (rest : List (List Nat)) :
    collectSyncIds (goodFetch db) (p :: rest)
      = (msgsUnder db p).map key ++ collectSyncIds (goodFetch db) rest := rfl

theorem collectSyncIds_goodFetch_length (db : List Msg) :
    ∀ ps : List (List Nat),
      (collectSyncIds (goodFetch db) ps).length
        = (ps.map (fun p => (msgsUnder db p).length)).sum
  | [] => rfl
  | p :: rest => by
    rw [collectSyncIds_goodFetch_cons, List.length_append, List.length_map,
      List.map_cons, List.sum_cons, collectSyncIds_goodFetch_length db rest]

theorem collectSyncIds_goodFetch_mem (db : List Msg) :
    ∀ (ps : List (List Nat)) (x : List Nat),
      x ∈ collectSyncIds (goodFetch db) ps →
      ∃ p ∈ ps, ∃ m ∈ db, p.isPrefixOf (key m) = true ∧ key m = x
  | [], x => by
    intro h
    cases h
  | p :: rest, x => by
    intro h
    rw [collectSyncIds_goodFetch_cons] at h
    rcases List.mem_append.mp h with h | h
    · rcases List.mem_map.mp h with ⟨m, hm, rfl⟩
      rw [msgsUnder, List.mem_filter] at hm
      exact ⟨p, List.mem_cons_self _ _, m, hm.1, hm.2, rfl⟩
    · obtain ⟨p', hp', m, hm, hpre, hkey⟩ := collectSyncIds_goodFetch_mem db rest x h
      exact ⟨p', List.mem_cons_of_mem _ hp', m, hm, hpre, hkey⟩

/-! Facts about the diff step. -/
theorem uniqueSyncIds_pred (l2 : List (List Nat)) (a : List Nat) :
    (l2.find? (fun other => bufCompare a other == Ordering.eq)).isNone
      = decide (a ∉ l2) := by
  by_cases hmem : a ∈ l2
  · rcases hf : l2.find? (fun other => bufCompare a other == Ordering.eq) with _ | b
    · rw [List.find?_eq_none] at hf
      exfalso
      refine hf a hmem ?_
      rw [bufCompare_self]
      rfl
    · simp [hmem]
  · rw [decide_eq_true (by exact hmem : a ∉ l2)]
    have hf : l2.find? (fun other => bufCompare a other == Ordering.eq) = none := by
      rw [List.find?_eq_none]
      intro b hb habs
      have heq : bufCompare a b = Ordering.eq := by
        cases hcb : bufCompare a b
        · rw [hcb] at habs
          exact absurd habs (by decide)
        · rfl
        · rw [hcb] at habs
          exact absurd habs (by decide)
      exact hmem ((bufCompare_eq_iff a b).mp heq ▸ hb)
    rw [hf]
    rfl

theorem mem_uniqueSyncIds {l1 l2 : List (List Nat)} {x : List Nat} :
    x ∈ uniqueSyncIds l1 l2 ↔ x ∈ l1 ∧ x ∉ l2 := by
  rw [uniqueSyncIds, List.mem_filter, uniqueSyncIds_pred]
  simp

theorem uniqueSyncIds_eq_filter (l1 l2 : List (List Nat)) :
    uniqueSyncIds l1 l2 = l1.filter (fun a => decide (a ∉ l2)) := by
  rw [uniqueSyncIds]
  refine List.filter_congr ?_
  intro a _
  exact uniqueSyncIds_pred l2 a

/-! Facts about time-of-day parsing. -/
theorem parseTime_none_iff (dayStartMs : Nat) (s : String) :
    parseTime dayStartMs s = none ↔ hasThreeNonemptyFields s = false := by
  rw [parseTime, hasThreeNonemptyFields]
  split
  · rename_i h mi sec _
    split_ifs with hemp
    · simp only [true_iff]
      rcases Bool.or_eq_true_iff.mp hemp with h' | h'
      · rcases Bool.or_eq_true_iff.mp h' with h'' | h'' <;> simp [h'']
      · simp [h']
    · simp only [Bool.or_eq_true_iff, not_or, Bool.not_eq_true] at hemp
      obtain ⟨⟨he1, he2⟩, he3⟩ := hemp
      split
      · simp [he1, he2, he3]
      · simp [he1, he2, he3]
  · rename_i hfall
    simp

/-- C1: for every replica (with representable timestamps) and every
half-open window `[startTime, stopTime)`, a successful run of the optimized
span counter (`getNumMessagesInSpanOptimized`, built on `traverseRange`
rooted at the common prefix of the two boundary prefixes) returns a sum
equal to the true number of messages whose timestamps lie in the window,
with no node visited twice — each visited node's count enters the sum
exactly once. -/
theorem c1_optimized_span_count_correct (db : List Msg) (startTime stopTime : Nat)
    (hdb : ∀ m ∈ db, m.ts < 10 ^ TIMESTAMP_LENGTH)
    (hord : startTime ≤ stopTime)
    (n : Nat) (vis : List TrieChild) (log : List (List Nat))
    (hrun : getNumMessagesInSpanOptimized db startTime stopTime = some (n, vis, log)) :
    n = db.countP (fun m => decide (startTime ≤ m.ts) && decide (m.ts < stopTime))
      ∧ (vis.map TrieChild.pfx).Nodup := by
  rw [getNumMessagesInSpanOptimized] at hrun
  split at hrun
  · cases hrun
  · rename_i info hinfo
    split at hrun
    · cases hrun
    · rename_i vis' log' htrav
      simp only [Option.some.injEq, Prod.mk.injEq] at hrun
      obtain ⟨hn, hv, _⟩ := hrun
      subst hn
      subst hv
      obtain ⟨hcount, hnd, _, _, _, _⟩ :=
        span_traversal_master db startTime stopTime hord info hinfo vis' log' htrav
      exact ⟨hcount hdb, hnd⟩

/-- Witness for C1 at a concrete replica and window. -/
theorem c1_witness :
    (2 : Nat) = exDb.countP (fun m => decide (2 ≤ m.ts) && decide (m.ts < 7))
      ∧ (([⟨timestampToPaddedTimestampPrefix 2, 1⟩,
          ⟨timestampToPaddedTimestampPrefix 5, 1⟩] : List TrieChild).map
            TrieChild.pfx).Nodup :=
  c1_optimized_span_count_correct exDb 2 7 (by decide) (by decide) 2
    [⟨timestampToPaddedTimestampPrefix 2, 1⟩, ⟨timestampToPaddedTimestampPrefix 5, 1⟩]
    [exCommon, exCommon] (by decide)

/-- C2: the diff step computes true set differences: an identifier in both
collections appears in neither output, each output only contains identifiers
of its first argument absent byte-for-byte from the second, and identical
inputs give empty outputs. -/
theorem c2_unique_sync_ids_set_difference (l1 l2 : List (List Nat)) :
    (∀ x, x ∈ l1 → x ∈ l2 → x ∉ uniqueSyncIds l1 l2 ∧ x ∉ uniqueSyncIds l2 l1)
    ∧ (∀ x ∈ uniqueSyncIds l1 l2, x ∈ l1 ∧ x ∉ l2)
    ∧ uniqueSyncIds l1 l1 = [] := by
  refine ⟨?_, ?_, ?_⟩
  · intro x hx1 hx2
    constructor
    · intro habs
      exact (mem_uniqueSyncIds.mp habs).2 hx2
    · intro habs
      exact (mem_uniqueSyncIds.mp habs).2 hx1
  · intro x hx
    exact mem_uniqueSyncIds.mp hx
  · rw [List.eq_nil_iff_forall_not_mem]
    intro x habs
    obtain ⟨h1, h2⟩ := mem_uniqueSyncIds.mp habs
    exact h2 h1

/-- Witness for C2 at concrete identifier collections. -/
theorem c2_witness :
    (([2] : List Nat) ∉ uniqueSyncIds [[1], [2]] [[2]]
      ∧ ([2] : List Nat) ∉ uniqueSyncIds [[2]] [[1], [2]])
    ∧ uniqueSyncIds [[3]] [[3]] = [] :=
  ⟨(c2_unique_sync_ids_set_difference [[1], [2]] [[2]]).1 [2] (by decide) (by decide),
    (c2_unique_sync_ids_set_difference [[3]] [[3]]).2.2⟩

/-- C3: a stats record whose primary count is zero never yields a finite
numeric `diffPercentage`: the unconditional division produces NaN or
positive infinity, which the serialized health record renders as an explicit
null. -/
theorem c3_zero_primary_no_finite_percentage (peerN : Nat) :
    serializedDiffPercentage ⟨0, peerN⟩ = none
    ∧ ∀ q : ℚ, computeDiffPercentage ⟨0, peerN⟩ ≠ JsNum.finite q := by
  have h : computeDiffPercentage ⟨0, peerN⟩
      = if computeDiff ⟨0, peerN⟩ = 0 then JsNum.nan else JsNum.posInf := by
    rw [computeDiffPercentage]
    simp
  constructor
  · rw [serializedDiffPercentage, h]
    split
    · rename_i q heq
      split at heq <;> cases heq
    · rfl
    · rfl
  · intro q habs
    rw [h] at habs
    split at habs <;> cases habs

/-- C4 counterexample: with the insecure client construction not raising and
the insecure channel becoming ready, the first (and only) transport
attempted is the insecure one — the connection step does not attempt a
secure connection first. -/
theorem c4_counterexample :
    ¬ (connectionAttempts false true).head? = some Transport.secure := by decide

/-- C4 (amended): for every peer, the connection step attempts an *insecure*
connection first, and creates the secure (SSL) client only when the insecure
attempt raises synchronously or fails to become ready within the
deadline. -/
theorem c4_amended_insecure_first : ∀ insecureRaises insecureReady : Bool,
    (connectionAttempts insecureRaises insecureReady).head? = some Transport.insecure
    ∧ (Transport.secure ∈ connectionAttempts insecureRaises insecureReady
        ↔ (insecureRaises = true ∨ insecureReady = false)) := by decide

/-- C5 counterexample: the collector has two silent-drop paths, so a failure
below it does not make the run fail.  First, with every per-prefix identifier
fetch failing, the identifier collector still returns success with an empty
collection although the window holds messages — the failed fetch is skipped
without propagating the error.  Second, the child loop of the range traversal
discards the result of a failing recursive traversal and carries on: a child
node on the window boundary whose recursive visit fails simply vanishes from
the visited list and the query log, again without an error. -/
theorem c5_counterexample :
    (computeSyncIdsInSpan exDb (fun _ => none) 2 7 = some []
      ∧ ¬ exDb.countP (fun m => decide (2 ≤ m.ts) && decide (m.ts < 7)) = 0)
    ∧ goChildren (timestampToPaddedTimestampPrefix 2) (timestampToPaddedTimestampPrefix 7)
        (fun _ => none) [⟨[0], 5⟩] = ([], []) := by decide

/-- C5 (amended): a failed per-prefix identifier fetch is silently skipped
and a failed recursive metadata fetch below the root is silently discarded,
so the collector can return success with a silently partial collection.  When
run against an in-process replica — where every metadata fetch below the root
succeeds — with every per-prefix identifier fetch returning the identifiers
below its node, a successful run returns the complete identifier collection
of the window: one entry per message of the window, and every entry the key
of a window message. -/
theorem c5_amended_collector (db : List Msg) (startTime stopTime : Nat)
    (hdb : ∀ m ∈ db, m.ts < 10 ^ TIMESTAMP_LENGTH)
    (hord : startTime ≤ stopTime)
    (ids : List (List Nat))
    (hrun : computeSyncIdsInSpan db (goodFetch db) startTime stopTime = some ids) :
    ids.length = db.countP (fun m => decide (startTime ≤ m.ts) && decide (m.ts < stopTime))
    ∧ ∀ x ∈ ids, ∃ m ∈ db, key m = x ∧ startTime ≤ m.ts ∧ m.ts < stopTime := by
  rw [computeSyncIdsInSpan] at hrun
  split at hrun
  · cases hrun
  · rename_i info hinfo
    split at hrun
    · cases hrun
    · rename_i vis log htrav
      simp only [Option.some.injEq] at hrun
      subst hrun
      obtain ⟨hcount, _, _, _, hnum, hwin⟩ :=
        span_traversal_master db startTime stopTime hord info hinfo vis log htrav
      constructor
      · rw [collectSyncIds_goodFetch_length db (vis.map TrieChild.pfx), List.map_map]
        have hmapeq : vis.map ((fun p => (msgsUnder db p).length) ∘ TrieChild.pfx)
            = vis.map TrieChild.num := by
          refine List.map_congr_left ?_
          intro c hc
          simp only [Function.comp]
          exact (hnum c hc).symm
        rw [hmapeq]
        exact hcount hdb
      · intro x hx
        obtain ⟨p, hp, m, hm, hpre, hkey⟩ :=
          collectSyncIds_goodFetch_mem db (vis.map TrieChild.pfx) x hx
        rcases List.mem_map.mp hp with ⟨c, hc, rfl⟩
        have hw := hwin hdb c hc m hm hpre
        simp only [Bool.and_eq_true, decide_eq_true_eq] at hw
        exact ⟨m, hm, hkey, hw.1, hw.2⟩

/-- Witness for the amended C5 at a concrete replica and window. -/
theorem c5_amended_witness :
    ([key ⟨2, [7]⟩, key ⟨5, [3]⟩] : List (List Nat)).length
        = exDb.countP (fun m => decide (2 ≤ m.ts) && decide (m.ts < 7))
    ∧ ∀ x ∈ ([key ⟨2, [7]⟩, key ⟨5, [3]⟩] : List (List Nat)),
        ∃ m ∈ exDb, key m = x ∧ 2 ≤ m.ts ∧ m.ts < 7 :=
  c5_amended_collector exDb 2 7 (by decide) (by decide)
    [key ⟨2, [7]⟩, key ⟨5, [3]⟩] (by decide)

/-- C6: the transfer step records exactly one outcome per missing identifier
(the bulk fetch returning one payload per requested identifier, as the spec
describes the fetch capability), every payload is submitted regardless of
what the other submissions return, and an empty missing set yields an empty
outcome list with no remote calls issued. -/
theorem c6_transfer_outcomes {M R : Type}
    (getAllMessagesBySyncIds : List (List Nat) → Option (List M))
    (submitMessage : M → R) :
    tryPushingMissingMessages getAllMessagesBySyncIds submitMessage [] = some ([], 0)
    ∧ ∀ (missing : List (List Nat)) (msgs : List M),
        missing ≠ [] →
        getAllMessagesBySyncIds missing = some msgs →
        msgs.length = missing.length →
        tryPushingMissingMessages getAllMessagesBySyncIds submitMessage missing
            = some (msgs.map submitMessage, 1 + missing.length)
          ∧ (msgs.map submitMessage).length = missing.length
          ∧ ∀ i : Nat, (msgs.map submitMessage).get? i
              = (msgs.get? i).map submitMessage := by
  constructor
  · rfl
  · intro missing msgs hne hfetch hlen
    have hlen0 : ¬ missing.length = 0 := by
      intro habs
      exact hne (List.length_eq_zero.mp habs)
    rw [tryPushingMissingMessages, if_neg hlen0, hfetch]
    refine ⟨?_, by rw [List.length_map, hlen], fun i => List.get?_map submitMessage msgs i⟩
    show some (msgs.map submitMessage, 1 + msgs.length)
      = some (msgs.map submitMessage, 1 + missing.length)
    rw [hlen]

/-- Witness for C6 at concrete capabilities and identifier lists. -/
theorem c6_witness :
    tryPushingMissingMessages (fun ids : List (List Nat) => some (ids.map List.length))
        (fun n => n + 1) [] = some ([], 0)
    ∧ tryPushingMissingMessages (fun ids : List (List Nat) => some (ids.map List.length))
        (fun n => n + 1) [[1], [2, 3]]
      = some (([1, 2] : List Nat).map (fun n => n + 1),
          1 + ([[1], [2, 3]] : List (List Nat)).length) :=
  ⟨(c6_transfer_outcomes (fun ids : List (List Nat) => some (ids.map List.length))
      (fun n => n + 1)).1,
    ((c6_transfer_outcomes (fun ids : List (List Nat) => some (ids.map List.length))
      (fun n => n + 1)).2 [[1], [2, 3]] [1, 2] (by decide) (by decide) (by decide)).1⟩

/-- C7 counterexample: a concrete successful run of the optimized span
counter whose query log holds a duplicate — the common-prefix node key is
passed to `getMetadata` twice (once by `getPrefixInfo`, once by the re-fetch
at the top of `traverseRange`), so metadata is *not* fetched at most once
per distinct prefix. -/
theorem c7_counterexample :
    (getNumMessagesInSpanOptimized exDb 2 7).map (fun r => decide r.2.2.Nodup)
      = some false := by decide

/-- C7 (amended): during one successful run of the optimized span counter
over a window, every node key is passed to `getMetadata` at most once,
except the common-prefix root key, which is queried exactly twice: once by
`getPrefixInfo` and once again by the re-fetch at the top of
`traverseRange`. -/
theorem c7_amended_query_once_except_root (db : List Msg) (startTime stopTime : Nat)
    (hord : startTime ≤ stopTime)
    (n : Nat) (vis : List TrieChild) (log : List (List Nat))
    (hrun : getNumMessagesInSpanOptimized db startTime stopTime = some (n, vis, log)) :
    ∃ c rest, log = c :: c :: rest ∧ (c :: rest).Nodup := by
  rw [getNumMessagesInSpanOptimized] at hrun
  split at hrun
  · cases hrun
  · rename_i info hinfo
    split at hrun
    · cases hrun
    · rename_i vis' log' htrav
      simp only [Option.some.injEq, Prod.mk.injEq] at hrun
      obtain ⟨_, _, hl⟩ := hrun
      obtain ⟨_, _, hlognd, ⟨rest, hresteq⟩, _, _⟩ :=
        span_traversal_master db startTime stopTime hord info hinfo vis' log' htrav
      refine ⟨info.commonPrefixMetadata.pfx, rest, ?_, ?_⟩
      · rw [← hl, hresteq]
      · rw [← hresteq]
        exact hlognd

/-- Witness for the amended C7 at a concrete replica and window. -/
theorem c7_amended_witness :
    ∃ c rest, ([exCommon, exCommon] : List (List Nat)) = c :: c :: rest
      ∧ (c :: rest).Nodup :=
  c7_amended_query_once_except_root exDb 2 7 (by decide) 2
    [⟨timestampToPaddedTimestampPrefix 2, 1⟩, ⟨timestampToPaddedTimestampPrefix 5, 1⟩]
    [exCommon, exCommon] (by decide)

/-- C8: the time-prefix encoding is strictly order-preserving under
byte-lexicographic comparison, for all representable timestamps. -/
theorem c8_time_prefix_order_preserving (t1 t2 : Nat)
    (h1 : t1 < 10 ^ TIMESTAMP_LENGTH) (h2 : t2 < 10 ^ TIMESTAMP_LENGTH) :
    (bufCompare (timestampToPaddedTimestampPrefix t1)
      (timestampToPaddedTimestampPrefix t2) = Ordering.lt ↔ t1 < t2) :=
  timestampPrefix_lt_iff t1 t2 h1 h2

/-- Witness for C8 at concrete timestamps. -/
theorem c8_witness :
    (bufCompare (timestampToPaddedTimestampPrefix 3)
      (timestampToPaddedTimestampPrefix 12) = Ordering.lt ↔ 3 < 12) :=
  c8_time_prefix_order_preserving 3 12 (by decide) (by decide)

/-- C9 counterexample: the time-of-day string "aa:bb:cc" is not a parseable
HH:MM:SS time, yet the run is not aborted before work starts: the guard only
rejects `undefined`, and three non-empty non-numeric fields parse to a NaN
time value, so client creation, peer selection and connections all
proceed. -/
theorem c9_counterexample :
    printSyncHealthProceeds 0 "aa:bb:cc" "00:00:00" = true
    ∧ wellFormedTimeOfDay "aa:bb:cc" = false := by decide

/-- C9 (amended): the run is fatal before any work (no peer selection, no
connection, no remote call, nothing appended) exactly when one of the two
time-of-day strings fails to split into three non-empty ":"-separated
fields; a string whose first three fields are non-empty but not numeric
passes the guard — its time parses to NaN, not `undefined` — and the run
proceeds. -/
theorem c9_amended_guard (dayStartMs : Nat) (s1 s2 : String) :
    printSyncHealthProceeds dayStartMs s1 s2 = false
      ↔ (hasThreeNonemptyFields s1 = false ∨ hasThreeNonemptyFields s2 = false) := by
  rw [printSyncHealthProceeds]
  have h1 := parseTime_none_iff dayStartMs s1
  have h2 := parseTime_none_iff dayStartMs s2
  constructor
  · intro h
    rcases Bool.and_eq_false_iff.mp h with h' | h'
    · left
      rw [← h1]
      cases hp : parseTime dayStartMs s1
      · rfl
      · rw [hp] at h'
        cases h'
    · right
      rw [← h2]
      cases hp : parseTime dayStartMs s2
      · rfl
      · rw [hp] at h'
        cases h'
  · intro h
    rcases h with h' | h'
    · rw [← h1] at h'
      rw [h']
      rfl
    · rw [← h2] at h'
      rw [h']
      simp

/-- C10: `uniqueSyncIds` returns an ordered list, not a deduplicated set: it
is exactly the first argument filtered to the entries with no byte-equal
element in the second, preserving order and multiplicity; in particular an
identifier occurring several times in the first argument and absent from the
second keeps its multiplicity in the output. -/
theorem c10_unique_sync_ids_ordered_list (l1 l2 : List (List Nat)) :
    uniqueSyncIds l1 l2 = l1.filter (fun a => decide (a ∉ l2))
    ∧ ∀ x, x ∉ l2 → (uniqueSyncIds l1 l2).count x = l1.count x := by
  refine ⟨uniqueSyncIds_eq_filter l1 l2, ?_⟩
  intro x hx
  rw [uniqueSyncIds_eq_filter l1 l2]
  exact List.count_filter (by rw [decide_eq_true hx])

/-- Witness for C10: a duplicated identifier absent from the second argument
keeps both occurrences. -/
theorem c10_witness :
    uniqueSyncIds [[1], [1]] [[2]]
        = ([[1], [1]] : List (List Nat)).filter (fun a => decide (a ∉ [[2]]))
    ∧ (uniqueSyncIds [[1], [1]] [[2]]).count [1]
        = ([[1], [1]] : List (List Nat)).count [1] :=
  ⟨(c10_unique_sync_ids_ordered_list [[1], [1]] [[2]]).1,
    (c10_unique_sync_ids_ordered_list [[1], [1]] [[2]]).2 [1] (by decide)⟩

end SyncHealth
